import Mathlib

/-!
Shallow embedding of `paddle/fluid/inference/analysis/passes/memory_optimize_pass.cc`.

The C++ pass works over `std::unordered_map`s.  We embed each map as an
association list `List (key × value)`; iteration order of an unordered map is
unspecified, so the association-list order models one concrete iteration order
(insertion order).  `size_t` quantities are modelled as `Nat` and shape
dimensions as `Int`; the two places where the source narrows a value into a
32-bit `int` (the `int` accumulator of line 196 and the `static_cast<int>` of
line 241) are modelled with the explicit two's-complement wrap `toInt32`.
-/

namespace MemOpt

/-! ### Association-list helpers (model of `std::unordered_map`) -/

section AssocList

variable {α : Type} {β : Type} [BEq α] [LawfulBEq α]

/-- The keys of an association list. -/
def keys (m : List (α × β)) : List α := m.map Prod.fst

theorem lookup_eq_some_of_mem_of_nodup {m : List (α × β)} {k : α} {v : β}
    (hnd : (keys m).Nodup) (hmem : (k, v) ∈ m) : m.lookup k = some v := by
  induction m with
  | nil => cases hmem
  | cons p rest ih =>
    cases p with
    | mk a b =>
      simp only [keys, List.map_cons, List.nodup_cons] at hnd
      rcases List.mem_cons.mp hmem with h | h
      · cases h
        simp [List.lookup]
      · have hk : (k == a) = false := by
          apply beq_eq_false_iff_ne.mpr
          intro he
          exact hnd.1 (he ▸ List.mem_map.mpr ⟨(k, v), h, rfl⟩)
        simp only [List.lookup, hk]
        exact ih hnd.2 h

theorem mem_of_lookup_eq_some {m : List (α × β)} {k : α} {v : β}
    (h : m.lookup k = some v) : (k, v) ∈ m := by
  induction m with
  | nil => simp [List.lookup] at h
  | cons p rest ih =>
    cases p with
    | mk a b =>
      by_cases hab : (k == a) = true
      · simp only [List.lookup, hab, Option.some.injEq] at h
        have : k = a := eq_of_beq hab
        subst this; subst h
        exact List.mem_cons_self _ _
      · rw [Bool.not_eq_true] at hab
        simp only [List.lookup, hab] at h
        exact List.mem_cons_of_mem _ (ih h)

theorem lookup_eq_none_of_not_mem_keys {m : List (α × β)} {k : α}
    (h : k ∉ keys m) : m.lookup k = none := by
  induction m with
  | nil => rfl
  | cons p rest ih =>
    cases p with
    | mk a b =>
      simp only [keys, List.map_cons, List.mem_cons, not_or] at h
      have hk : (k == a) = false := beq_eq_false_iff_ne.mpr h.1
      simp only [List.lookup, hk]
      exact ih h.2

theorem mem_keys_of_lookup_isSome {m : List (α × β)} {k : α}
    (h : (m.lookup k).isSome) : k ∈ keys m := by
  by_contra hk
  rw [lookup_eq_none_of_not_mem_keys hk] at h
  cases h

theorem lookup_isSome_of_mem_keys {m : List (α × β)} {k : α}
    (h : k ∈ keys m) : (m.lookup k).isSome := by
  induction m with
  | nil => cases h
  | cons p rest ih =>
    cases p with
    | mk a b =>
      by_cases hab : (k == a) = true
      · simp [List.lookup, hab]
      · rw [Bool.not_eq_true] at hab
        simp only [List.lookup, hab]
        apply ih
        simp only [keys, List.map_cons, List.mem_cons] at h
        rcases h with h | h
        · exact absurd (beq_iff_eq.mpr h) (by simp [hab])
        · exact h

end AssocList

/-! ### The planner data model: `MemNode` (from `memory_optimize_pass.cc`, lines 45-51)

The C++ struct also carries a mutable `cluster : int` tag, used only to mark a
node as already assigned while the greedy loops run.  In the functional
embedding the assignment status is represented structurally (assigned nodes are
removed from the remaining worklist), so the tag is not a field. -/

structure MemNode where
  name : String
  size : Nat
  lifetime : Nat × Nat
  adj : List String
deriving DecidableEq, Repr

instance : Inhabited MemNode := ⟨⟨"", 0, (0, 0), []⟩⟩

/-- Closed-interval overlap test (line 219-221):
`b.second >= a.first && a.second >= b.first`. -/
def overlap (a b : Nat × Nat) : Prop := a.1 ≤ b.2 ∧ b.1 ≤ a.2

instance (a b : Nat × Nat) : Decidable (overlap a b) := by
  unfold overlap; infer_instance

theorem overlap_symm {a b : Nat × Nat} (h : overlap a b) : overlap b a := ⟨h.2, h.1⟩

/-! ### Building the candidate list (lines 209-218)

The loop over `lifecycles` keeps exactly the keys that also appear in
`space_table`, in iteration order. -/

def buildNodes (lifecycles : List (String × Nat × Nat)) (space_table : List (String × Nat)) :
    List MemNode :=
  lifecycles.filterMap fun d =>
    match space_table.lookup d.1 with
    | some s => some ⟨d.1, s, d.2, []⟩
    | none => none

/-! ### The pairwise adjacency pass (lines 222-230)

The double loop inserts `name j` into `adj i` and `name i` into `adj j` for
every index pair `i < j` whose lifetimes overlap; the net effect is that node
`i`'s adjacency set holds the name of every node at a different index whose
lifetime overlaps node `i`'s.  `enumNodes` pairs each node with its index. -/

def enumNodes : Nat → List MemNode → List (Nat × MemNode)
  | _, [] => []
  | i, n :: rest => (i, n) :: enumNodes (i + 1) rest

def withAdj (ns : List MemNode) : List MemNode :=
  (enumNodes 0 ns).map fun p =>
    { p.2 with
      adj := (enumNodes 0 ns).filterMap fun q =>
        if q.1 ≠ p.1 ∧ overlap p.2.lifetime q.2.lifetime then some q.2.name else none }

/-! ### Sorting by size, descending (lines 232-234)

The comparator is `a.size > b.size` only; `std::sort` leaves the relative
order of equal-size nodes unspecified.  A stable insertion sort under the
corresponding non-strict order models one valid execution. -/

def sizeGE (a b : MemNode) : Prop := b.size ≤ a.size

instance : DecidableRel sizeGE := fun a b => by unfold sizeGE; infer_instance

instance : IsTotal MemNode sizeGE := ⟨fun a b => Nat.le_total b.size a.size⟩

instance : IsTrans MemNode sizeGE := ⟨fun _ _ _ h1 h2 => Nat.le_trans h2 h1⟩

def sortedNodes (lifecycles : List (String × Nat × Nat)) (space_table : List (String × Nat)) :
    List MemNode :=
  List.insertionSort sizeGE (withAdj (buildNodes lifecycles space_table))

/-! ### The greedy clustering loop (lines 237-254)

The outer loop opens a cluster at the first still-unassigned node `i`; the
inner loop scans the subsequent unassigned nodes in order, admitting node `j`
when its name is not in the running `cluster_adj`, and on admission unions
`j`'s adjacency into `cluster_adj`.  `scanCluster` is the inner loop
(returning the admitted nodes and the untouched remainder); `clusters` is the
outer loop, expressed with a fuel argument so that it is structurally
recursive (the fuel `l.length` always suffices, because the remainder only
shrinks). -/

def scanCluster (clusterAdj : List String) : List MemNode → List MemNode × List MemNode
  | [] => ([], [])
  | m :: rest =>
    if m.name ∈ clusterAdj then
      let p := scanCluster clusterAdj rest
      (p.1, m :: p.2)
    else
      let p := scanCluster (m.adj ++ clusterAdj) rest
      (m :: p.1, p.2)

def clustersFuel : Nat → List MemNode → List (MemNode × List MemNode)
  | 0, _ => []
  | _, [] => []
  | fuel + 1, n :: rest =>
    let p := scanCluster n.adj rest
    (n, p.1) :: clustersFuel fuel p.2

def clusters (l : List MemNode) : List (MemNode × List MemNode) :=
  clustersFuel l.length l

/-- The `node2cluster` map: inside each cluster the root is mapped to itself
(line 242) and every admitted member to the root's name (line 247). -/
def node2cluster (l : List MemNode) : List (String × String) :=
  (clusters l).flatMap fun c => (c.1.name, c.1.name) :: c.2.map fun m => (m.name, c.1.name)

/-- Two's-complement narrowing of an integer to a C++ 32-bit `int`, the
conversion performed by `static_cast<int>` (line 241) and by the `int`
accumulator of line 196.  The result lies in `[-2^31, 2^31)`. -/
def toInt32 (x : Int) : Int := (x + 2147483648) % 4294967296 - 2147483648

/-- Conversion of a C++ `int` value to `size_t` (64-bit unsigned), as happens
when `size` enters the `size_t`-valued space table (line 198). -/
def toUInt64 (x : Int) : Nat := (x % 18446744073709551616).toNat

/-- The `cluster_size` map: one entry per cluster, keyed by the root's name,
holding `static_cast<int>(root's size)` (line 241) - the `size_t` size is
narrowed to `int`, wrapping at `2^31`. -/
def clusterSizes (l : List MemNode) : List (String × Int) :=
  (clusters l).map fun c => (c.1.name, toInt32 (c.1.size : Int))

/-- `MakeSimpleReusePlan` (lines 204-259): build candidates, compute pairwise
adjacency, sort descending by size, run the greedy clustering, and return the
two output maps. -/
def makeSimpleReusePlan (lifecycles : List (String × Nat × Nat))
    (space_table : List (String × Nat)) :
    List (String × String) × List (String × Int) :=
  let l := sortedNodes lifecycles space_table
  (node2cluster l, clusterSizes l)

/-! ### The graph data model

The pass consumes `framework::ir::Graph`, which is outside this file's source;
only the features the pass reads are modelled.  An operator node exposes its
type name and its ordered input/output variable lists; a variable node exposes
an optional descriptor (`node->Var()` may be null) with ordered shape,
persistence flag, element byte width (`SizeOfType(GetDataType())`) and whether
its container kind is `LOD_TENSOR`.  Variables are referenced by name; the
op-incidence lists of a variable node (`node->inputs` = producing ops,
`node->outputs` = consuming ops) are recovered from the operator lists of a
consistent graph.  `Graph.ops` is the operator sequence that
`TopologyVariantSort` returns for the selected `sort_kind`; `Graph.vars` is
the variable-node portion of `graph->Nodes()` in one iteration order. -/

structure VarDesc where
  shape : List Int
  persistable : Bool
  dtypeSize : Nat
  isLod : Bool
deriving DecidableEq, Repr

structure VarNode where
  name : String
  desc : Option VarDesc
deriving DecidableEq, Repr

structure OpNode where
  opType : String
  inputs : List String
  outputs : List String
deriving DecidableEq, Repr

structure Graph where
  ops : List OpNode
  vars : List VarNode
deriving DecidableEq, Repr

/-- The operator nodes producing a variable (a variable node's `inputs`). -/
def varProducers (g : Graph) (name : String) : List OpNode :=
  g.ops.filter fun o => name ∈ o.outputs

/-- The operator nodes consuming a variable (a variable node's `outputs`). -/
def varConsumers (g : Graph) (name : String) : List OpNode :=
  g.ops.filter fun o => name ∈ o.inputs

def findVar (g : Graph) (name : String) : Option VarNode :=
  g.vars.find? fun v => v.name == name

/-- `INT_MAX`, the sentinel end of a feed output's lifetime (line 77). -/
def intMax : Nat := 2147483647

/-! ### `MemoryOptimizePass::CollectLifeCycle` (lines 57-122)

State: the lifecycle map plus the `max_lifecycle` step counter.  A negative
persistent shape raises `PADDLE_ENFORCE_GE`, modelled as `Except.error`.  The
`persis_byte` running total is only logged (line 120) and is not modelled. -/

/-- `lifecycles->emplace(var, ...)` (line 76): insert only when absent. -/
def lcEmplace (lcs : List (String × Nat × Nat)) (k : String) (p : Nat × Nat) :
    List (String × Nat × Nat) :=
  if (lcs.lookup k).isSome then lcs else lcs ++ [(k, p)]

/-- Lines 109-114: first sighting starts the interval at the current step;
a later sighting extends the end to `max(max_lifecycle, current end)`. -/
def lcTouch (lcs : List (String × Nat × Nat)) (k : String) (step : Nat) :
    List (String × Nat × Nat) :=
  if (lcs.lookup k).isSome then
    lcs.map fun q => if q.1 = k then (q.1, q.2.1, max step q.2.2) else q
  else lcs ++ [(k, (step, step))]

def shapeErrMsg : String := "The shape of node shouldn't be negative. "

def hasNegDim (d : VarDesc) : Bool := d.shape.any fun i => decide (i < 0)

/-- Lines 86-90: the var is skipped when one of the ops producing it
(`node->inputs`) is a `fetch` op. -/
def producedByFetch (g : Graph) (name : String) : Bool :=
  (varProducers g name).any fun o => o.opType == "fetch"

/-- Lines 81-115: handling of one referenced variable of a normal operator. -/
def processVar (g : Graph) (step : Nat) (lcs : List (String × Nat × Nat))
    (name : String) : Except String (List (String × Nat × Nat)) :=
  match findVar g name with
  | none => .ok lcs
  | some v =>
    match v.desc with
    | none => .ok lcs
    | some d =>
      if d.persistable then
        if producedByFetch g v.name then .ok lcs
        else if hasNegDim d then .error shapeErrMsg
        else .ok lcs
      else .ok (lcTouch lcs name step)

/-- Lines 65-118: one operator node.  Feed outputs are emplaced with lifetime
`[0, INT_MAX]`; other operators process `req = inputs ++ outputs`; the step
counter advances in both branches. -/
def processOp (g : Graph) (st : List (String × Nat × Nat) × Nat) (op : OpNode) :
    Except String (List (String × Nat × Nat) × Nat) :=
  if op.opType = "feed" then
    .ok (op.outputs.foldl (fun l v => lcEmplace l v (0, intMax)) st.1, st.2 + 1)
  else do
    let l ← (op.inputs ++ op.outputs).foldlM (fun l nm => processVar g st.2 l nm) st.1
    .ok (l, st.2 + 1)

def collectLifeCycle (g : Graph) : Except String (List (String × Nat × Nat)) := do
  let st ← g.ops.foldlM (fun st op => processOp g st op) ([], 0)
  .ok st.1

/-! ### `MemoryOptimizePass::CollectVarMemorySize` (lines 124-202) -/

/-- The literal operator-type blacklist (lines 130-141). -/
def invalidOps : List String :=
  ["while", "conditional_block", "tensorrt_engine", "conditional_block_infer",
   "merge_lod_tensor_infer", "merge_lod_tensor", "equal", "sequence_pool",
   "recurrent", "lod_reset", "fetch", "share_data"]

/-- `valid_var` (lines 128-167): no operator incident on the variable has a
blacklisted type. -/
def validVar (g : Graph) (name : String) : Bool :=
  (varProducers g name ++ varConsumers g name).all fun o => !(invalidOps.contains o.opType)

/-- Lines 172-181: the blacklist holds the names of the LOD-tensor variable
nodes failing `valid_var`. -/
def blackList (g : Graph) : List String :=
  (g.vars.filter fun v =>
    (match v.desc with | some d => d.isLod | none => false) && !validVar g v.name).map
    VarNode.name

/-- Lines 191-197: negative (dynamic) dimensions are replaced by the fake
batch size 1 before taking the product. -/
def fixDims (shape : List Int) : List Int := shape.map fun v => if v < 0 then 1 else v

/-- Line 196: `int size = std::accumulate(shape.begin(), shape.end(), 1,
multiplies)`.  The accumulator has type `int`, so every step's `int64_t`
product is narrowed back to a 32-bit `int`. -/
def intAccumulate (dims : List Int) : Int :=
  dims.foldl (fun acc v => toInt32 (acc * v)) 1

/-- Lines 196-199: `size * SizeOfType(dtype)` stored into the `size_t` space
table: the (possibly wrapped, possibly negative) `int` product is converted
to `size_t` and the multiplication is carried out modulo `2^64`. -/
def tensorBytes (d : VarDesc) : Nat :=
  (toUInt64 (intAccumulate (fixDims d.shape)) * d.dtypeSize) % 18446744073709551616

/-- Map assignment `(*space_table)[name] = bytes` (line 198): overwrite when
present, append when absent. -/
def tblSet (m : List (String × Nat)) (k : String) (v : Nat) : List (String × Nat) :=
  if (m.lookup k).isSome then m.map fun p => if p.1 = k then (k, v) else p
  else m ++ [(k, v)]

def collectVarMemorySize (g : Graph) : List (String × Nat) :=
  g.vars.foldl
    (fun tbl v =>
      match v.desc with
      | some d =>
        if d.isLod && !(blackList g).contains v.name then
          if d.persistable then tbl else tblSet tbl v.name (tensorBytes d)
        else tbl
      | none => tbl)
    []

/-! ### `MemoryOptimizePass::RunImpl` (lines 263-295) and the results registry -/

/-- Modelled from the spec: the payload kinds a registry cell can hold; the
registry header (`pass_result_info.h`) is not part of the sources, and the
spec says both produced maps (`node2cluster`, the string map, and
`clusterSize`, the int map) are publishable values. -/
inductive PassResult where
  | strMap : List (String × String) → PassResult
  | intMap : List (String × Int) → PassResult
deriving DecidableEq, Repr

/-- Modelled from the spec: the process-wide results registry, keyed by
`(sessionId, passName)`; a second write under the same key overwrites the
first (last-writer-wins). -/
abbrev Registry : Type := List ((Int × String) × PassResult)

/-- Modelled from the spec: `PassResultInfoForRuntime::Instance()->Set`. -/
def registrySet (reg : Registry) (key : Int × String) (v : PassResult) : Registry :=
  if (List.lookup key reg).isSome then
    reg.map fun e => if e.1 = key then (key, v) else e
  else reg ++ [(key, v)]

/-- The fields of `Argument` that `RunImpl` reads. -/
structure Argument where
  enable_memory_optim : Bool
  root_predictor_id : Int
  main_graph : Graph
deriving DecidableEq, Repr

def isErr {ε α : Type} : Except ε α → Bool
  | .error _ => true
  | .ok _ => false

/-- `RunImpl` (lines 263-295): a no-op when the session's memory-optimization
flag is off; otherwise run the three phases (`sort_kind = 0` selects the
operator order already fixed in `Graph.ops`) and publish `node2cluster` -
and only `node2cluster` - under `(root_predictor_id, "memory_optimize_pass")`.
A `PADDLE_ENFORCE` failure inside `CollectLifeCycle` propagates out. -/
def runImpl (arg : Argument) (reg : Registry) : Except String Registry :=
  if !arg.enable_memory_optim then .ok reg
  else do
    let lifecycles ← collectLifeCycle arg.main_graph
    let space_table := collectVarMemorySize arg.main_graph
    let plan := makeSimpleReusePlan lifecycles space_table
    .ok (registrySet reg (arg.root_predictor_id, "memory_optimize_pass")
      (.strMap plan.1))

/-! ### Lemmas about the greedy clustering -/

theorem scanCluster_adm_sublist (s : List String) (l : List MemNode) :
    (scanCluster s l).1.Sublist l := by
  induction l generalizing s with
  | nil => simp [scanCluster]
  | cons m rest ih =>
    by_cases h : m.name ∈ s
    · simp only [scanCluster, if_pos h]
      exact (ih s).cons m
    · simp only [scanCluster, if_neg h]
      exact (ih (m.adj ++ s)).cons₂ m

theorem scanCluster_rem_sublist (s : List String) (l : List MemNode) :
    (scanCluster s l).2.Sublist l := by
  induction l generalizing s with
  | nil => simp [scanCluster]
  | cons m rest ih =>
    by_cases h : m.name ∈ s
    · simp only [scanCluster, if_pos h]
      exact (ih s).cons₂ m
    · simp only [scanCluster, if_neg h]
      exact (ih (m.adj ++ s)).cons m

theorem scanCluster_perm (s : List String) (l : List MemNode) :
    ((scanCluster s l).1 ++ (scanCluster s l).2).Perm l := by
  induction l generalizing s with
  | nil => simp [scanCluster]
  | cons m rest ih =>
    by_cases h : m.name ∈ s
    · simp only [scanCluster, if_pos h]
      exact (List.perm_middle.trans ((ih s).cons m)).symm.symm
    · simp only [scanCluster, if_neg h, List.cons_append]
      exact (ih (m.adj ++ s)).cons m

theorem scanCluster_adm_not_mem (s : List String) (l : List MemNode) :
    ∀ x ∈ (scanCluster s l).1, x.name ∉ s := by
  induction l generalizing s with
  | nil => simp [scanCluster]
  | cons m rest ih =>
    by_cases h : m.name ∈ s
    · simp only [scanCluster, if_pos h]
      exact ih s
    · simp only [scanCluster, if_neg h]
      intro x hx
      rcases List.mem_cons.mp hx with h1 | h1
      · subst h1; exact h
      · intro hs
        exact ih (m.adj ++ s) x h1 (List.mem_append.mpr (Or.inr hs))

theorem scanCluster_adm_pairwise (s : List String) (l : List MemNode) :
    List.Pairwise (fun a b => b.name ∉ a.adj) (scanCluster s l).1 := by
  induction l generalizing s with
  | nil => simp [scanCluster]
  | cons m rest ih =>
    by_cases h : m.name ∈ s
    · simp only [scanCluster, if_pos h]
      exact ih s
    · simp only [scanCluster, if_neg h]
      refine List.pairwise_cons.mpr ⟨?_, ih (m.adj ++ s)⟩
      intro x hx
      intro hmem
      exact scanCluster_adm_not_mem (m.adj ++ s) rest x hx (List.mem_append.mpr (Or.inl hmem))

theorem clustersFuel_eq_of_le {f1 f2 : Nat} :
    ∀ {l : List MemNode}, l.length ≤ f1 → l.length ≤ f2 →
      clustersFuel f1 l = clustersFuel f2 l := by
  induction f1 generalizing f2 with
  | zero =>
    intro l h1 _
    have : l = [] := List.eq_nil_of_length_eq_zero (Nat.le_zero.mp h1)
    subst this
    cases f2 <;> rfl
  | succ f1 ih =>
    intro l h1 h2
    cases l with
    | nil => cases f2 <;> rfl
    | cons n rest =>
      cases f2 with
      | zero => exact absurd h2 (by simp)
      | succ f2 =>
        simp only [clustersFuel]
        have hr : (scanCluster n.adj rest).2.length ≤ rest.length :=
          (scanCluster_rem_sublist n.adj rest).length_le
        have h1' : (scanCluster n.adj rest).2.length ≤ f1 :=
          Nat.le_trans hr (Nat.le_of_succ_le_succ h1)
        have h2' : (scanCluster n.adj rest).2.length ≤ f2 :=
          Nat.le_trans hr (Nat.le_of_succ_le_succ h2)
        rw [ih h1' h2']

theorem clusters_nil : clusters [] = [] := rfl

theorem clusters_cons (n : MemNode) (rest : List MemNode) :
    clusters (n :: rest) =
      (n, (scanCluster n.adj rest).1) :: clusters (scanCluster n.adj rest).2 := by
  show clustersFuel (n :: rest).length (n :: rest) = _
  simp only [List.length_cons, clustersFuel]
  rw [clustersFuel_eq_of_le
    ((scanCluster_rem_sublist n.adj rest).length_le) (Nat.le_refl _)]
  rfl

/-- The concatenation of all clusters (root first, then the admitted members). -/
def clustersFlatten (l : List MemNode) : List MemNode :=
  (clusters l).flatMap fun c => c.1 :: c.2

theorem clusters_flatten_perm : ∀ l : List MemNode, (clustersFlatten l).Perm l
  | [] => by simp [clustersFlatten, clusters_nil]
  | n :: rest => by
    rw [clustersFlatten, clusters_cons]
    simp only [List.flatMap_cons]
    have ih := clusters_flatten_perm (scanCluster n.adj rest).2
    rw [clustersFlatten] at ih
    have h1 : n :: (scanCluster n.adj rest).1 ++
          (clusters (scanCluster n.adj rest).2).flatMap (fun c => c.1 :: c.2)
        = n :: ((scanCluster n.adj rest).1 ++
          (clusters (scanCluster n.adj rest).2).flatMap (fun c => c.1 :: c.2)) := by
      simp
    rw [h1]
    exact List.Perm.cons n
      ((List.Perm.append_left _ ih).trans (scanCluster_perm n.adj rest))
termination_by l => l.length
decreasing_by
  simp only [List.length_cons]
  exact Nat.lt_succ_of_le (scanCluster_rem_sublist n.adj rest).length_le

theorem clusters_members_pairwise :
    ∀ l : List MemNode, ∀ c ∈ clusters l,
      List.Pairwise (fun a b => b.name ∉ a.adj) (c.1 :: c.2)
  | [] => by simp [clusters_nil]
  | n :: rest => by
    rw [clusters_cons]
    intro c hc
    rcases List.mem_cons.mp hc with h | h
    · subst h
      refine List.pairwise_cons.mpr ⟨?_, scanCluster_adm_pairwise n.adj rest⟩
      intro x hx
      exact scanCluster_adm_not_mem n.adj rest x hx
    · exact clusters_members_pairwise (scanCluster n.adj rest).2 c h
termination_by l => l.length
decreasing_by
  simp only [List.length_cons]
  exact Nat.lt_succ_of_le (scanCluster_rem_sublist n.adj rest).length_le

theorem clusters_member_size_le :
    ∀ l : List MemNode, List.Sorted sizeGE l → ∀ c ∈ clusters l, ∀ m ∈ c.2,
      m.size ≤ c.1.size
  | [] => by simp [clusters_nil]
  | n :: rest => by
    intro hs
    rw [clusters_cons]
    intro c hc m hm
    rcases List.mem_cons.mp hc with h | h
    · subst h
      have hmem : m ∈ rest := (scanCluster_adm_sublist n.adj rest).mem hm
      exact (List.pairwise_cons.mp hs).1 m hmem
    · have hsorted : List.Sorted sizeGE (scanCluster n.adj rest).2 :=
        List.Pairwise.sublist ((scanCluster_rem_sublist n.adj rest).cons n) hs
      exact clusters_member_size_le (scanCluster n.adj rest).2 hsorted c h m hm
termination_by l => l.length
decreasing_by
  simp only [List.length_cons]
  exact Nat.lt_succ_of_le (scanCluster_rem_sublist n.adj rest).length_le

theorem exists_cluster {l : List MemNode} {x : MemNode} (hx : x ∈ l) :
    ∃ c ∈ clusters l, x ∈ c.1 :: c.2 := by
  have : x ∈ clustersFlatten l := ((clusters_flatten_perm l).mem_iff).mpr hx
  exact List.mem_flatMap.mp this

theorem mem_of_mem_clusters {l : List MemNode} {c : MemNode × List MemNode}
    (hc : c ∈ clusters l) {x : MemNode} (hx : x ∈ c.1 :: c.2) : x ∈ l :=
  ((clusters_flatten_perm l).mem_iff).mp (List.mem_flatMap.mpr ⟨c, hc, hx⟩)

theorem node2cluster_keys (l : List MemNode) :
    keys (node2cluster l) = (clustersFlatten l).map MemNode.name := by
  simp only [node2cluster, keys, clustersFlatten, List.map_flatMap]
  congr 1
  funext c
  simp [List.map_map, Function.comp]

theorem node2cluster_keys_nodup {l : List MemNode}
    (hnd : (l.map MemNode.name).Nodup) : (keys (node2cluster l)).Nodup := by
  rw [node2cluster_keys]
  exact (((clusters_flatten_perm l).map MemNode.name).nodup_iff).mpr hnd

theorem mem_node2cluster_of_mem_cluster {l : List MemNode}
    {c : MemNode × List MemNode} (hc : c ∈ clusters l) {x : MemNode}
    (hx : x ∈ c.1 :: c.2) : (x.name, c.1.name) ∈ node2cluster l := by
  apply List.mem_flatMap.mpr
  refine ⟨c, hc, ?_⟩
  rcases List.mem_cons.mp hx with h | h
  · subst h
    exact List.mem_cons_self _ _
  · exact List.mem_cons_of_mem _ (List.mem_map.mpr ⟨x, h, rfl⟩)

theorem lookup_node2cluster {l : List MemNode}
    (hnd : (l.map MemNode.name).Nodup) {c : MemNode × List MemNode}
    (hc : c ∈ clusters l) {x : MemNode} (hx : x ∈ c.1 :: c.2) :
    (node2cluster l).lookup x.name = some c.1.name :=
  lookup_eq_some_of_mem_of_nodup (node2cluster_keys_nodup hnd)
    (mem_node2cluster_of_mem_cluster hc hx)

theorem node2cluster_entry_inv {l : List MemNode} {p : String × String}
    (hp : p ∈ node2cluster l) :
    ∃ c ∈ clusters l, p = (c.1.name, c.1.name) ∨ ∃ m ∈ c.2, p = (m.name, c.1.name) := by
  rcases List.mem_flatMap.mp hp with ⟨c, hc, hmem⟩
  refine ⟨c, hc, ?_⟩
  rcases List.mem_cons.mp hmem with h | h
  · exact Or.inl h
  · rcases List.mem_map.mp h with ⟨m, hm, he⟩
    exact Or.inr ⟨m, hm, he.symm⟩

theorem pairwise_mem_or {α : Type} {P : α → α → Prop} :
    ∀ {l : List α}, List.Pairwise P l → ∀ {a b : α}, a ∈ l → b ∈ l →
      a = b ∨ P a b ∨ P b a := by
  intro l h
  induction h with
  | nil => intro a b ha _; cases ha
  | cons hx _ ih =>
    intro a b ha hb
    rcases List.mem_cons.mp ha with h1 | h1 <;> rcases List.mem_cons.mp hb with h2 | h2
    · exact Or.inl (h1.trans h2.symm)
    · subst h1; exact Or.inr (Or.inl (hx b h2))
    · subst h2; exact Or.inr (Or.inr (hx a h1))
    · exact ih h1 h2

theorem nodup_flatMap_pairwise {α β : Type} {f : α → List β} :
    ∀ {L : List α}, (L.flatMap f).Nodup →
      L.Pairwise fun a b => ∀ x ∈ f a, x ∉ f b := by
  intro L
  induction L with
  | nil => intro _; exact List.Pairwise.nil
  | cons c t ih =>
    intro h
    rw [List.flatMap_cons, List.nodup_append] at h
    refine List.Pairwise.cons ?_ (ih h.2.1)
    intro b hb x hx hxb
    exact h.2.2 hx (List.mem_flatMap.mpr ⟨b, hb, hxb⟩)

theorem nodup_flatMap_each {α β : Type} {f : α → List β} :
    ∀ {L : List α}, (L.flatMap f).Nodup → ∀ a ∈ L, (f a).Nodup := by
  intro L
  induction L with
  | nil => intro _ a ha; cases ha
  | cons c t ih =>
    intro h a ha
    rw [List.flatMap_cons, List.nodup_append] at h
    rcases List.mem_cons.mp ha with h1 | h1
    · subst h1; exact h.1
    · exact ih h.2.1 a h1

theorem clusters_names_flatten_nodup {l : List MemNode}
    (hnd : (l.map MemNode.name).Nodup) :
    ((clusters l).flatMap fun c => (c.1 :: c.2).map MemNode.name).Nodup := by
  have : ((clusters l).flatMap fun c => (c.1 :: c.2).map MemNode.name) =
      (clustersFlatten l).map MemNode.name := by
    simp [clustersFlatten, List.map_flatMap]
  rw [this]
  exact (((clusters_flatten_perm l).map MemNode.name).nodup_iff).mpr hnd

theorem clusters_disjoint {l : List MemNode} (hnd : (l.map MemNode.name).Nodup) :
    List.Pairwise
      (fun c c' : MemNode × List MemNode =>
        ∀ nm ∈ (c.1 :: c.2).map MemNode.name, nm ∉ (c'.1 :: c'.2).map MemNode.name)
      (clusters l) :=
  nodup_flatMap_pairwise (clusters_names_flatten_nodup hnd)

theorem clusters_members_names_nodup {l : List MemNode}
    (hnd : (l.map MemNode.name).Nodup) {c : MemNode × List MemNode}
    (hc : c ∈ clusters l) : ((c.1 :: c.2).map MemNode.name).Nodup :=
  nodup_flatMap_each (clusters_names_flatten_nodup hnd) c hc

/-! ### Lemmas about the adjacency pass and the candidate list -/

theorem enumNodes_ge {i : Nat} {x : MemNode} :
    ∀ {k : Nat} {l : List MemNode}, (i, x) ∈ enumNodes k l → k ≤ i := by
  intro k l
  induction l generalizing k with
  | nil => intro h; cases h
  | cons n rest ih =>
    intro h
    rcases List.mem_cons.mp h with h1 | h1
    · cases h1; exact Nat.le_refl _
    · exact Nat.le_of_succ_le (ih h1)

theorem enumNodes_inj {i : Nat} {x y : MemNode} :
    ∀ {k : Nat} {l : List MemNode}, (i, x) ∈ enumNodes k l → (i, y) ∈ enumNodes k l →
      x = y := by
  intro k l
  induction l generalizing k with
  | nil => intro h; cases h
  | cons n rest ih =>
    intro hx hy
    rcases List.mem_cons.mp hx with h1 | h1 <;> rcases List.mem_cons.mp hy with h2 | h2
    · cases h1; cases h2; rfl
    · cases h1
      exact absurd (enumNodes_ge h2) (Nat.not_succ_le_self _)
    · cases h2
      exact absurd (enumNodes_ge h1) (Nat.not_succ_le_self _)
    · exact ih h1 h2

theorem mem_enumNodes_of_mem {x : MemNode} :
    ∀ {k : Nat} {l : List MemNode}, x ∈ l → ∃ i, (i, x) ∈ enumNodes k l := by
  intro k l
  induction l generalizing k with
  | nil => intro h; cases h
  | cons n rest ih =>
    intro h
    rcases List.mem_cons.mp h with h1 | h1
    · subst h1; exact ⟨k, List.mem_cons_self _ _⟩
    · rcases ih (k := k + 1) h1 with ⟨i, hi⟩
      exact ⟨i, List.mem_cons_of_mem _ hi⟩

theorem enumNodes_map_snd : ∀ (k : Nat) (l : List MemNode),
    (enumNodes k l).map Prod.snd = l := by
  intro k l
  induction l generalizing k with
  | nil => rfl
  | cons n rest ih => simp [enumNodes, ih]

/-- The observable projection of a node: everything but its adjacency list. -/
def proj (n : MemNode) : String × Nat × (Nat × Nat) := (n.name, n.size, n.lifetime)

theorem withAdj_map_proj (ns : List MemNode) : (withAdj ns).map proj = ns.map proj := by
  unfold withAdj
  rw [List.map_map]
  have h1 : (proj ∘ fun p : Nat × MemNode =>
      { p.2 with
        adj := (enumNodes 0 ns).filterMap fun q =>
          if q.1 ≠ p.1 ∧ overlap p.2.lifetime q.2.lifetime then some q.2.name else none })
      = proj ∘ Prod.snd := by
    funext p
    rfl
  rw [h1, ← List.map_map, enumNodes_map_snd]

theorem withAdj_map_name (ns : List MemNode) :
    (withAdj ns).map MemNode.name = ns.map MemNode.name := by
  have h1 : ∀ l : List MemNode, l.map MemNode.name = (l.map proj).map Prod.fst := by
    intro l
    rw [List.map_map]
    rfl
  rw [h1, h1, withAdj_map_proj]

theorem exists_withAdj_of_mem {ns : List MemNode} {x : MemNode} (hx : x ∈ ns) :
    ∃ y ∈ withAdj ns, proj y = proj x := by
  have : proj x ∈ (withAdj ns).map proj := by
    rw [withAdj_map_proj]
    exact List.mem_map.mpr ⟨x, hx, rfl⟩
  rcases List.mem_map.mp this with ⟨y, hy, he⟩
  exact ⟨y, hy, he⟩

/-- Adjacency correctness: inside a list produced by `withAdj`, every pair of
nodes with different names and overlapping lifetimes is recorded in each
other's adjacency set. -/
def AdjClosed (l : List MemNode) : Prop :=
  ∀ x ∈ l, ∀ y ∈ l, x.name ≠ y.name → overlap x.lifetime y.lifetime → y.name ∈ x.adj

theorem withAdj_adjClosed (ns : List MemNode) : AdjClosed (withAdj ns) := by
  intro x hx y hy hne hov
  rcases List.mem_map.mp hx with ⟨p, hp, hpx⟩
  rcases List.mem_map.mp hy with ⟨q, hq, hqy⟩
  have hxname : x.name = p.2.name := by rw [← hpx]
  have hyname : y.name = q.2.name := by rw [← hqy]
  have hxlt : x.lifetime = p.2.lifetime := by rw [← hpx]
  have hylt : y.lifetime = q.2.lifetime := by rw [← hqy]
  have hij : q.1 ≠ p.1 := by
    intro he
    apply hne
    rw [hxname, hyname]
    have : p.2 = q.2 := by
      rcases p with ⟨i, pm⟩
      rcases q with ⟨j, qm⟩
      simp only at he
      subst he
      exact enumNodes_inj hp hq
    rw [this]
  have hxadj : x.adj = (enumNodes 0 ns).filterMap fun q =>
      if q.1 ≠ p.1 ∧ overlap p.2.lifetime q.2.lifetime then some q.2.name else none := by
    rw [← hpx]
  rw [hxadj]
  apply List.mem_filterMap.mpr
  refine ⟨q, hq, ?_⟩
  rw [hxlt, hylt] at hov
  rw [if_pos ⟨hij, hov⟩, hyname]

theorem buildNodes_names_sublist (lc : List (String × Nat × Nat))
    (st : List (String × Nat)) :
    ((buildNodes lc st).map MemNode.name).Sublist (lc.map Prod.fst) := by
  induction lc with
  | nil => simp [buildNodes]
  | cons d rest ih =>
    simp only [buildNodes, List.filterMap_cons] at ih ⊢
    cases h : st.lookup d.1 with
    | none => exact ih.cons d.1
    | some s => exact ih.cons₂ d.1

theorem buildNodes_names_nodup {lc : List (String × Nat × Nat)}
    {st : List (String × Nat)} (hnd : (lc.map Prod.fst).Nodup) :
    ((buildNodes lc st).map MemNode.name).Nodup :=
  (buildNodes_names_sublist lc st).nodup hnd

theorem mem_buildNodes {lc : List (String × Nat × Nat)} {st : List (String × Nat)}
    {k : String} {lt : Nat × Nat} {s : Nat} (hlc : (k, lt) ∈ lc)
    (hst : st.lookup k = some s) : (⟨k, s, lt, []⟩ : MemNode) ∈ buildNodes lc st := by
  apply List.mem_filterMap.mpr
  refine ⟨(k, lt), hlc, ?_⟩
  simp [hst]

theorem mem_buildNodes_inv {lc : List (String × Nat × Nat)} {st : List (String × Nat)}
    {x : MemNode} (hx : x ∈ buildNodes lc st) :
    (x.name, x.lifetime) ∈ lc ∧ st.lookup x.name = some x.size ∧ x.adj = [] := by
  rcases List.mem_filterMap.mp hx with ⟨d, hd, he⟩
  cases h : st.lookup d.1 with
  | none => rw [h] at he; cases he
  | some s =>
    rw [h] at he
    cases he
    exact ⟨hd, h, rfl⟩

theorem sortedNodes_perm (lc : List (String × Nat × Nat)) (st : List (String × Nat)) :
    (sortedNodes lc st).Perm (withAdj (buildNodes lc st)) :=
  List.perm_insertionSort sizeGE _

theorem sortedNodes_sorted (lc : List (String × Nat × Nat)) (st : List (String × Nat)) :
    List.Sorted sizeGE (sortedNodes lc st) :=
  List.sorted_insertionSort sizeGE _

theorem sortedNodes_names_nodup {lc : List (String × Nat × Nat)}
    (st : List (String × Nat)) (hnd : (lc.map Prod.fst).Nodup) :
    ((sortedNodes lc st).map MemNode.name).Nodup := by
  apply ((sortedNodes_perm lc st).map MemNode.name).nodup_iff.mpr
  rw [withAdj_map_name]
  exact buildNodes_names_nodup hnd

theorem sortedNodes_adjClosed (lc : List (String × Nat × Nat))
    (st : List (String × Nat)) : AdjClosed (sortedNodes lc st) := by
  intro x hx y hy
  have hx' := (sortedNodes_perm lc st).mem_iff.mp hx
  have hy' := (sortedNodes_perm lc st).mem_iff.mp hy
  exact withAdj_adjClosed (buildNodes lc st) x hx' y hy'

/-- Every candidate of the original list appears in the sorted, adjacency-
annotated list with the same name, size and lifetime. -/
theorem exists_sortedNodes_of_mem {lc : List (String × Nat × Nat)}
    {st : List (String × Nat)} {x : MemNode} (hx : x ∈ buildNodes lc st) :
    ∃ y ∈ sortedNodes lc st, proj y = proj x := by
  rcases exists_withAdj_of_mem hx with ⟨y, hy, he⟩
  exact ⟨y, (sortedNodes_perm lc st).mem_iff.mpr hy, he⟩

/-- Every node of the sorted list projects back to a candidate: its name and
lifetime come from a `lifecycles` entry and its size from `space_table`. -/
theorem sortedNodes_mem_inv {lc : List (String × Nat × Nat)}
    {st : List (String × Nat)} {y : MemNode} (hy : y ∈ sortedNodes lc st) :
    (y.name, y.lifetime) ∈ lc ∧ st.lookup y.name = some y.size := by
  have hy' := (sortedNodes_perm lc st).mem_iff.mp hy
  have : proj y ∈ (withAdj (buildNodes lc st)).map proj :=
    List.mem_map.mpr ⟨y, hy', rfl⟩
  rw [withAdj_map_proj] at this
  rcases List.mem_map.mp this with ⟨x, hx, he⟩
  have hn : x.name = y.name := congrArg Prod.fst he
  have hs : x.size = y.size := congrArg (Prod.fst ∘ Prod.snd) he
  have hl : x.lifetime = y.lifetime := congrArg (Prod.snd ∘ Prod.snd) he
  rcases mem_buildNodes_inv hx with ⟨h1, h2, _⟩
  rw [hn, hl] at h1
  rw [hn, hs] at h2
  exact ⟨h1, h2⟩

/-- Central separation lemma: on a candidate list with distinct names whose
adjacency sets record every overlapping pair, the greedy pass never maps two
overlapping nodes to the same representative. -/
theorem greedy_separates {l : List MemNode} (hnd : (l.map MemNode.name).Nodup)
    (hadj : AdjClosed l) {u v : MemNode} (hu : u ∈ l) (hv : v ∈ l)
    (hne : u.name ≠ v.name) (hov : overlap u.lifetime v.lifetime) :
    (node2cluster l).lookup u.name ≠ (node2cluster l).lookup v.name := by
  rcases exists_cluster hu with ⟨cu, hcu, hmu⟩
  rcases exists_cluster hv with ⟨cv, hcv, hmv⟩
  have h1 := lookup_node2cluster hnd hcu hmu
  have h2 := lookup_node2cluster hnd hcv hmv
  rw [h1, h2]
  intro heq
  have hroot : cu.1.name = cv.1.name := Option.some.inj heq
  have humem : cu.1.name ∈ (cu.1 :: cu.2).map MemNode.name :=
    List.mem_map.mpr ⟨cu.1, List.mem_cons_self _ _, rfl⟩
  have hvmem : cu.1.name ∈ (cv.1 :: cv.2).map MemNode.name := by
    rw [hroot]
    exact List.mem_map.mpr ⟨cv.1, List.mem_cons_self _ _, rfl⟩
  have hsame : cu = cv := by
    rcases pairwise_mem_or (clusters_disjoint hnd) hcu hcv with h | h | h
    · exact h
    · exact absurd hvmem (h cu.1.name humem)
    · exact absurd humem (h cu.1.name hvmem)
  subst hsame
  rcases pairwise_mem_or (clusters_members_pairwise l cu hcu) hmu hmv with h | h | h
  · exact hne (congrArg MemNode.name h)
  · exact h (hadj u hu v hv hne hov)
  · exact h (hadj v hv u hu (Ne.symm hne) (overlap_symm hov))

/-- C1.  For every pair of distinct candidates in the produced plan whose
lifecycle intervals overlap under the closed-interval rule,
`MakeSimpleReusePlan` maps them to different representatives. -/
theorem makeSimpleReusePlan_no_overlap_share
    (lc : List (String × Nat × Nat)) (st : List (String × Nat))
    (hnd : (lc.map Prod.fst).Nodup) {u v : MemNode}
    (hu : u ∈ buildNodes lc st) (hv : v ∈ buildNodes lc st)
    (hne : u.name ≠ v.name) (hov : overlap u.lifetime v.lifetime) :
    (makeSimpleReusePlan lc st).1.lookup u.name ≠
      (makeSimpleReusePlan lc st).1.lookup v.name := by
  rcases exists_sortedNodes_of_mem hu with ⟨u', hu', heu⟩
  rcases exists_sortedNodes_of_mem hv with ⟨v', hv', hev⟩
  have hun : u'.name = u.name := congrArg Prod.fst heu
  have hvn : v'.name = v.name := congrArg Prod.fst hev
  have hul : u'.lifetime = u.lifetime := congrArg (Prod.snd ∘ Prod.snd) heu
  have hvl : v'.lifetime = v.lifetime := congrArg (Prod.snd ∘ Prod.snd) hev
  have hne' : u'.name ≠ v'.name := by rw [hun, hvn]; exact hne
  have hov' : overlap u'.lifetime v'.lifetime := by rw [hul, hvl]; exact hov
  have := greedy_separates (sortedNodes_names_nodup st hnd)
    (sortedNodes_adjClosed lc st) hu' hv' hne' hov'
  rw [hun, hvn] at this
  exact this

theorem makeSimpleReusePlan_no_overlap_share_witness :
    (makeSimpleReusePlan [("a", (0, 1)), ("b", (1, 2))] [("a", 5), ("b", 3)]).1.lookup "a" ≠
      (makeSimpleReusePlan [("a", (0, 1)), ("b", (1, 2))] [("a", 5), ("b", 3)]).1.lookup "b" :=
  makeSimpleReusePlan_no_overlap_share
    [("a", (0, 1)), ("b", (1, 2))] [("a", 5), ("b", 3)] (by decide)
    (u := ⟨"a", 5, (0, 1), []⟩) (v := ⟨"b", 3, (1, 2), []⟩)
    (by decide) (by decide) (by decide) (by decide)

theorem makeSimpleReusePlan_fst (lc : List (String × Nat × Nat))
    (st : List (String × Nat)) :
    (makeSimpleReusePlan lc st).1 = node2cluster (sortedNodes lc st) := rfl

theorem makeSimpleReusePlan_snd (lc : List (String × Nat × Nat))
    (st : List (String × Nat)) :
    (makeSimpleReusePlan lc st).2 = clusterSizes (sortedNodes lc st) := rfl

theorem clusterSizes_keys (l : List MemNode) :
    keys (clusterSizes l) = (clusters l).map fun c => c.1.name := by
  simp [clusterSizes, keys, List.map_map, Function.comp]

theorem roots_names_sublist :
    ∀ L : List (MemNode × List MemNode),
      (L.map fun c => c.1.name).Sublist
        (L.flatMap fun c => (c.1 :: c.2).map MemNode.name) := by
  intro L
  induction L with
  | nil => simp
  | cons c t ih =>
    simp only [List.map_cons, List.flatMap_cons, List.cons_append]
    exact (ih.trans (List.sublist_append_right _ _)).cons₂ c.1.name

theorem clusterSizes_keys_nodup {l : List MemNode}
    (hnd : (l.map MemNode.name).Nodup) : (keys (clusterSizes l)).Nodup := by
  rw [clusterSizes_keys]
  exact (roots_names_sublist (clusters l)).nodup (clusters_names_flatten_nodup hnd)

theorem lookup_clusterSizes {l : List MemNode} (hnd : (l.map MemNode.name).Nodup)
    {c : MemNode × List MemNode} (hc : c ∈ clusters l) :
    (clusterSizes l).lookup c.1.name = some (toInt32 (c.1.size : Int)) :=
  lookup_eq_some_of_mem_of_nodup (clusterSizes_keys_nodup hnd)
    (List.mem_map.mpr ⟨c, hc, rfl⟩)

theorem mem_clusterSizes_keys_iff {l : List MemNode} {r : String} :
    r ∈ keys (clusterSizes l) ↔ ∃ c ∈ clusters l, r = c.1.name := by
  rw [clusterSizes_keys]
  constructor
  · intro h
    rcases List.mem_map.mp h with ⟨c, hc, he⟩
    exact ⟨c, hc, he.symm⟩
  · intro ⟨c, hc, he⟩
    exact List.mem_map.mpr ⟨c, hc, he.symm⟩

theorem mem_node2cluster_values_iff {l : List MemNode} {r : String} :
    r ∈ (node2cluster l).map Prod.snd ↔ ∃ c ∈ clusters l, r = c.1.name := by
  constructor
  · intro h
    rcases List.mem_map.mp h with ⟨p, hp, he⟩
    rcases node2cluster_entry_inv hp with ⟨c, hc, h1 | ⟨m, _, h1⟩⟩ <;>
      exact ⟨c, hc, by rw [← he, h1]⟩
  · intro ⟨c, hc, he⟩
    subst he
    exact List.mem_map.mpr
      ⟨(c.1.name, c.1.name), mem_node2cluster_of_mem_cluster hc (List.mem_cons_self _ _), rfl⟩

theorem toInt32_coe_of_lt {n : Nat} (h : n < 2147483648) :
    toInt32 (n : Int) = (n : Int) := by
  unfold toInt32
  omega

/-- C2 (amended).  In the produced plan, the representatives' names are
exactly the values of `node2cluster`, each appearing once as a `cluster_size`
key; every representative maps to itself; the recorded value is
`static_cast<int>` of the representative's `size_t` size; and the
representative's un-truncated size bounds every member's size, so the
recorded value bounds it too whenever the representative's size is below
`2^31` (at larger sizes the stored `int` wraps, see the counterexample). -/
theorem makeSimpleReusePlan_cluster_rep (lc : List (String × Nat × Nat))
    (st : List (String × Nat)) (hnd : (lc.map Prod.fst).Nodup) :
    (keys (makeSimpleReusePlan lc st).2).Nodup
    ∧ (∀ r ∈ keys (makeSimpleReusePlan lc st).2,
        (makeSimpleReusePlan lc st).1.lookup r = some r)
    ∧ (∀ r : String, r ∈ keys (makeSimpleReusePlan lc st).2 ↔
        r ∈ (makeSimpleReusePlan lc st).1.map Prod.snd)
    ∧ (∀ x ∈ buildNodes lc st, ∃ r rs,
        (makeSimpleReusePlan lc st).1.lookup x.name = some r ∧
        st.lookup r = some rs ∧
        (makeSimpleReusePlan lc st).2.lookup r = some (toInt32 (rs : Int)) ∧
        x.size ≤ rs ∧
        (rs < 2147483648 → (x.size : Int) ≤ toInt32 (rs : Int))) := by
  rw [makeSimpleReusePlan_fst, makeSimpleReusePlan_snd]
  have hnd' := sortedNodes_names_nodup st hnd
  refine ⟨clusterSizes_keys_nodup hnd', ?_, ?_, ?_⟩
  · intro r hr
    rcases mem_clusterSizes_keys_iff.mp hr with ⟨c, hc, he⟩
    subst he
    exact lookup_node2cluster hnd' hc (List.mem_cons_self _ _)
  · intro r
    rw [mem_clusterSizes_keys_iff, mem_node2cluster_values_iff]
  · intro x hx
    rcases exists_sortedNodes_of_mem hx with ⟨x', hx', he⟩
    have hxn : x'.name = x.name := congrArg Prod.fst he
    have hxs : x'.size = x.size := congrArg (Prod.fst ∘ Prod.snd) he
    rcases exists_cluster hx' with ⟨c, hc, hm⟩
    have hcmem : c.1 ∈ sortedNodes lc st :=
      mem_of_mem_clusters hc (List.mem_cons_self _ _)
    have hst : st.lookup c.1.name = some c.1.size := (sortedNodes_mem_inv hcmem).2
    have hle : x.size ≤ c.1.size := by
      rw [← hxs]
      rcases List.mem_cons.mp hm with h | h
      · rw [h]
      · exact clusters_member_size_le _ (sortedNodes_sorted lc st) c hc x' h
    refine ⟨c.1.name, c.1.size, ?_, hst, lookup_clusterSizes hnd' hc, hle, ?_⟩
    · rw [← hxn]
      exact lookup_node2cluster hnd' hc hm
    · intro hlt
      rw [toInt32_coe_of_lt hlt]
      exact Int.ofNat_le.mpr hle

theorem makeSimpleReusePlan_cluster_rep_witness :
    (keys (makeSimpleReusePlan [("a", (0, 1)), ("b", (1, 2))] [("a", 5), ("b", 3)]).2).Nodup
    ∧ ∃ r rs,
        (makeSimpleReusePlan [("a", (0, 1)), ("b", (1, 2))]
          [("a", 5), ("b", 3)]).1.lookup "a" = some r
        ∧ ([("a", 5), ("b", 3)] : List (String × Nat)).lookup r = some rs
        ∧ (makeSimpleReusePlan [("a", (0, 1)), ("b", (1, 2))]
            [("a", 5), ("b", 3)]).2.lookup r = some (toInt32 (rs : Int))
        ∧ 5 ≤ rs ∧ (rs < 2147483648 → ((5 : Nat) : Int) ≤ toInt32 (rs : Int)) :=
  have h := makeSimpleReusePlan_cluster_rep [("a", (0, 1)), ("b", (1, 2))]
    [("a", 5), ("b", 3)] (by decide)
  ⟨h.1, h.2.2.2 ⟨"a", 5, (0, 1), []⟩ (by decide)⟩

/-- C2 counterexample.  A candidate of 8 GiB (a `2^30`-element float64
tensor, no undefined behavior anywhere upstream) is its own representative,
but line 241's `static_cast<int>` wraps its size to 0, so
`cluster_size[node2cluster[v]] >= size[v]` fails as stated. -/
theorem makeSimpleReusePlan_cluster_size_wraps :
    (makeSimpleReusePlan [("big", (0, 0))] [("big", 8589934592)]).1.lookup "big" =
      some "big"
    ∧ (makeSimpleReusePlan [("big", (0, 0))] [("big", 8589934592)]).2.lookup "big" =
      some 0
    ∧ ¬((8589934592 : Int) ≤ 0) := by
  decide

/-- C9.  The worked scenario: lifecycles `{A:[0,2], B:[3,5], C:[1,4]}` and
sizes `{A:100, B:50, C:80}` yield `node2cluster = {A->A, B->A, C->C}` (B is
admitted into A's cluster because its name is not in the cluster's running
adjacency set) and `cluster_size = {A:100, C:80}`. -/
theorem makeSimpleReusePlan_worked_scenario :
    (makeSimpleReusePlan [("A", (0, 2)), ("B", (3, 5)), ("C", (1, 4))]
        [("A", 100), ("B", 50), ("C", 80)]).1.lookup "A" = some "A"
    ∧ (makeSimpleReusePlan [("A", (0, 2)), ("B", (3, 5)), ("C", (1, 4))]
        [("A", 100), ("B", 50), ("C", 80)]).1.lookup "B" = some "A"
    ∧ (makeSimpleReusePlan [("A", (0, 2)), ("B", (3, 5)), ("C", (1, 4))]
        [("A", 100), ("B", 50), ("C", 80)]).1.lookup "C" = some "C"
    ∧ (makeSimpleReusePlan [("A", (0, 2)), ("B", (3, 5)), ("C", (1, 4))]
        [("A", 100), ("B", 50), ("C", 80)]).2 = [("A", 100), ("C", 80)]
    ∧ (makeSimpleReusePlan [("A", (0, 2)), ("B", (3, 5)), ("C", (1, 4))]
        [("A", 100), ("B", 50), ("C", 80)]).1 =
        [("A", "A"), ("B", "A"), ("C", "C")] := by
  decide

/-- C10.  A candidate recorded with the feed-branch lifetime `[0, INT_MAX]`
overlaps every candidate, so it always becomes its own representative and no
other candidate is ever mapped to its name. -/
theorem makeSimpleReusePlan_feed_alone (lc : List (String × Nat × Nat))
    (st : List (String × Nat)) (hnd : (lc.map Prod.fst).Nodup) (f : String)
    (sz : Nat) (hf : (f, (0, intMax)) ∈ lc) (hsz : st.lookup f = some sz)
    (hbound : ∀ p ∈ lc, p.2.1 ≤ intMax) :
    (makeSimpleReusePlan lc st).1.lookup f = some f
    ∧ ∀ p ∈ (makeSimpleReusePlan lc st).1, p.2 = f → p.1 = f := by
  rw [makeSimpleReusePlan_fst]
  have hnd' := sortedNodes_names_nodup st hnd
  have hx : (⟨f, sz, (0, intMax), []⟩ : MemNode) ∈ buildNodes lc st :=
    mem_buildNodes hf hsz
  rcases exists_sortedNodes_of_mem hx with ⟨x', hx', he⟩
  have hxn : x'.name = f := congrArg Prod.fst he
  have hxl : x'.lifetime = (0, intMax) := congrArg (Prod.snd ∘ Prod.snd) he
  have hov_all : ∀ y ∈ sortedNodes lc st, overlap x'.lifetime y.lifetime := by
    intro y hy
    have hmem := (sortedNodes_mem_inv hy).1
    have hb := hbound (y.name, y.lifetime) hmem
    rw [hxl]
    exact ⟨Nat.zero_le _, hb⟩
  rcases exists_cluster hx' with ⟨c, hc, hm⟩
  have hmembers_nodup := clusters_members_names_nodup hnd' hc
  have hmn2 : c.1.name ∉ c.2.map MemNode.name := by
    rw [List.map_cons] at hmembers_nodup
    exact (List.nodup_cons.mp hmembers_nodup).1
  have hroot : x' = c.1 := by
    rcases List.mem_cons.mp hm with h | h
    · exact h
    · exfalso
      have hcn : c.1.name ≠ x'.name := by
        intro heq
        exact hmn2 (heq ▸ List.mem_map.mpr ⟨x', h, rfl⟩)
      have hc1mem : c.1 ∈ sortedNodes lc st :=
        mem_of_mem_clusters hc (List.mem_cons_self _ _)
      have hadj := sortedNodes_adjClosed lc st c.1 hc1mem x' hx' hcn
        (overlap_symm (hov_all c.1 hc1mem))
      have hpw := (List.pairwise_cons.mp (clusters_members_pairwise _ c hc)).1
      exact hpw x' h hadj
  have hcf : c.1.name = f := by rw [← hroot]; exact hxn
  constructor
  · have := lookup_node2cluster hnd' hc (List.mem_cons_self c.1 c.2)
    rw [hcf] at this
    exact this
  · intro p hp hpv
    rcases node2cluster_entry_inv hp with ⟨c', hc', h1 | ⟨m, hmm, h1⟩⟩
    · subst h1
      simp only at hpv ⊢
      exact hpv
    · exfalso
      subst h1
      simp only at hpv
      have hmemc : f ∈ (c.1 :: c.2).map MemNode.name := by
        rw [← hcf]
        exact List.mem_map.mpr ⟨c.1, List.mem_cons_self _ _, rfl⟩
      have hmemc' : f ∈ (c'.1 :: c'.2).map MemNode.name := by
        rw [← hpv]
        exact List.mem_map.mpr ⟨c'.1, List.mem_cons_self _ _, rfl⟩
      have hsamec : c' = c := by
        rcases pairwise_mem_or (clusters_disjoint hnd') hc' hc with h | h | h
        · exact h
        · exact absurd hmemc (h f hmemc')
        · exact absurd hmemc' (h f hmemc)
      subst hsamec
      have hmn : m.name ≠ f := by
        intro heq
        apply hmn2
        rw [hcf, ← heq]
        exact List.mem_map.mpr ⟨m, hmm, rfl⟩
      have hmmem : m ∈ sortedNodes lc st :=
        mem_of_mem_clusters hc (List.mem_cons_of_mem _ hmm)
      have hadj := sortedNodes_adjClosed lc st x' hx' m hmmem
        (by rw [hxn]; exact Ne.symm hmn) (hov_all m hmmem)
      have hpw := (List.pairwise_cons.mp (clusters_members_pairwise _ c' hc)).1
      apply hpw m hmm
      rw [← hroot]
      exact hadj

theorem makeSimpleReusePlan_feed_alone_witness :
    (makeSimpleReusePlan [("x", (0, intMax)), ("y", (1, 1))]
        [("x", 8), ("y", 8)]).1.lookup "x" = some "x"
    ∧ ∀ p ∈ (makeSimpleReusePlan [("x", (0, intMax)), ("y", (1, 1))]
        [("x", 8), ("y", 8)]).1, p.2 = "x" → p.1 = "x" :=
  makeSimpleReusePlan_feed_alone [("x", (0, intMax)), ("y", (1, 1))]
    [("x", 8), ("y", 8)] (by decide) "x" 8 (by decide) (by decide)
    (by decide)

/-! ### Order sensitivity of the sort: congruence machinery

`std::sort`'s comparator consults only sizes, so the relative order of
equal-size candidates is whatever the unordered containers happen to present.
When all candidate sizes are distinct the plan does not depend on the
presentation order; the lemmas below prove that.  Two nodes are `NEquiv` when
they agree on everything the greedy loop observes: name, size, lifetime, and
adjacency membership. -/

def NEquiv (x y : MemNode) : Prop :=
  proj x = proj y ∧ ∀ t : String, t ∈ x.adj ↔ t ∈ y.adj

theorem NEquiv.name_eq {x y : MemNode} (h : NEquiv x y) : x.name = y.name :=
  congrArg Prod.fst h.1

theorem NEquiv.size_eq {x y : MemNode} (h : NEquiv x y) : x.size = y.size :=
  congrArg (Prod.fst ∘ Prod.snd) h.1

theorem scanCluster_congr {s₁ s₂ : List String} (hs : ∀ t, t ∈ s₁ ↔ t ∈ s₂) :
    ∀ {l₁ l₂ : List MemNode}, List.Forall₂ NEquiv l₁ l₂ →
      List.Forall₂ NEquiv (scanCluster s₁ l₁).1 (scanCluster s₂ l₂).1 ∧
      List.Forall₂ NEquiv (scanCluster s₁ l₁).2 (scanCluster s₂ l₂).2 := by
  intro l₁ l₂ h
  induction h generalizing s₁ s₂ with
  | nil => exact ⟨List.Forall₂.nil, List.Forall₂.nil⟩
  | @cons m₁ m₂ t₁ t₂ hm ht ih =>
    have hname : m₁.name = m₂.name := hm.name_eq
    by_cases hmem : m₁.name ∈ s₁
    · have hmem₂ : m₂.name ∈ s₂ := (hs m₂.name).mp (hname ▸ hmem)
      simp only [scanCluster, if_pos hmem, if_pos hmem₂]
      exact ⟨(ih hs).1, List.Forall₂.cons hm (ih hs).2⟩
    · have hmem₂ : m₂.name ∉ s₂ := fun hin => hmem (hname ▸ (hs m₂.name).mpr hin)
      simp only [scanCluster, if_neg hmem, if_neg hmem₂]
      have hs' : ∀ t, t ∈ m₁.adj ++ s₁ ↔ t ∈ m₂.adj ++ s₂ := by
        intro t
        simp only [List.mem_append]
        exact or_congr (hm.2 t) (hs t)
      exact ⟨List.Forall₂.cons hm (ih hs').1, (ih hs').2⟩

/-- The relation between matching clusters of two `NEquiv` runs. -/
def CEquiv (c c' : MemNode × List MemNode) : Prop :=
  NEquiv c.1 c'.1 ∧ List.Forall₂ NEquiv c.2 c'.2

theorem clustersFuel_congr :
    ∀ (f : Nat) {l₁ l₂ : List MemNode}, l₁.length ≤ f →
      List.Forall₂ NEquiv l₁ l₂ →
      List.Forall₂ CEquiv (clustersFuel f l₁) (clustersFuel f l₂) := by
  intro f
  induction f with
  | zero =>
    intro l₁ l₂ hlen h
    have : l₁ = [] := List.eq_nil_of_length_eq_zero (Nat.le_zero.mp hlen)
    subst this
    cases h
    exact List.Forall₂.nil
  | succ f ih =>
    intro l₁ l₂ hlen h
    cases h with
    | nil => exact List.Forall₂.nil
    | @cons n₁ n₂ t₁ t₂ hn ht =>
      simp only [clustersFuel]
      have hsc := scanCluster_congr hn.2 ht
      refine List.Forall₂.cons ⟨hn, hsc.1⟩ ?_
      have hr1 : (scanCluster n₁.adj t₁).2.length ≤ f :=
        Nat.le_trans (scanCluster_rem_sublist n₁.adj t₁).length_le
          (Nat.le_of_succ_le_succ hlen)
      exact ih hr1 hsc.2

theorem clusters_congr {l₁ l₂ : List MemNode} (h : List.Forall₂ NEquiv l₁ l₂) :
    List.Forall₂ CEquiv (clusters l₁) (clusters l₂) := by
  have hlen : l₁.length = l₂.length := h.length_eq
  show List.Forall₂ CEquiv (clustersFuel l₁.length l₁) (clustersFuel l₂.length l₂)
  rw [← hlen]
  exact clustersFuel_congr l₁.length (Nat.le_refl _) h

theorem names_map_congr : ∀ {m₁ m₂ : List MemNode}, List.Forall₂ NEquiv m₁ m₂ →
    m₁.map MemNode.name = m₂.map MemNode.name := by
  intro m₁ m₂ h
  induction h with
  | nil => rfl
  | cons hm _ ihm =>
    simp only [List.map_cons]
    rw [ihm, hm.name_eq]

theorem entries_flatMap_congr :
    ∀ {L₁ L₂ : List (MemNode × List MemNode)}, List.Forall₂ CEquiv L₁ L₂ →
      (L₁.flatMap fun c => (c.1.name, c.1.name) :: c.2.map fun m => (m.name, c.1.name)) =
        L₂.flatMap fun c => (c.1.name, c.1.name) :: c.2.map fun m => (m.name, c.1.name) := by
  intro L₁ L₂ h
  induction h with
  | nil => rfl
  | @cons c₁ c₂ t₁ t₂ hc _ ih =>
    simp only [List.flatMap_cons]
    rw [ih]
    congr 1
    have hroot : c₁.1.name = c₂.1.name := hc.1.name_eq
    rw [hroot]
    congr 1
    have hnames := names_map_congr hc.2
    have hsplit : ∀ (ms : List MemNode) (r : String),
        ms.map (fun m => (m.name, r)) = (ms.map MemNode.name).map (fun nm => (nm, r)) := by
      intro ms r
      rw [List.map_map]
      rfl
    rw [hsplit, hsplit, hnames]

theorem node2cluster_congr {l₁ l₂ : List MemNode}
    (h : List.Forall₂ NEquiv l₁ l₂) : node2cluster l₁ = node2cluster l₂ :=
  entries_flatMap_congr (clusters_congr h)

theorem sizes_map_congr :
    ∀ {L₁ L₂ : List (MemNode × List MemNode)}, List.Forall₂ CEquiv L₁ L₂ →
      (L₁.map fun c => (c.1.name, toInt32 (c.1.size : Int))) =
        L₂.map fun c => (c.1.name, toInt32 (c.1.size : Int)) := by
  intro L₁ L₂ h
  induction h with
  | nil => rfl
  | cons hc _ ih =>
    simp only [List.map_cons]
    rw [ih, hc.1.name_eq, hc.1.size_eq]

theorem clusterSizes_congr {l₁ l₂ : List MemNode}
    (h : List.Forall₂ NEquiv l₁ l₂) : clusterSizes l₁ = clusterSizes l₂ :=
  sizes_map_congr (clusters_congr h)

theorem mem_of_mem_enumNodes {q : Nat × MemNode} :
    ∀ {k : Nat} {l : List MemNode}, q ∈ enumNodes k l → q.2 ∈ l := by
  intro k l
  induction l generalizing k with
  | nil => intro h; cases h
  | cons n rest ih =>
    intro h
    rcases List.mem_cons.mp h with h1 | h1
    · subst h1; exact List.mem_cons_self _ _
    · exact List.mem_cons_of_mem _ (ih h1)

theorem enumNodes_names_distinct {i j : Nat} {p q : MemNode} :
    ∀ {k : Nat} {l : List MemNode}, (l.map MemNode.name).Nodup →
      (i, p) ∈ enumNodes k l → (j, q) ∈ enumNodes k l → i ≠ j → p.name ≠ q.name := by
  intro k l
  induction l generalizing k with
  | nil => intro _ h; cases h
  | cons n rest ih =>
    intro hnd hp hq hij
    rw [List.map_cons, List.nodup_cons] at hnd
    rcases List.mem_cons.mp hp with h1 | h1 <;> rcases List.mem_cons.mp hq with h2 | h2
    · cases h1; cases h2; exact absurd rfl hij
    · cases h1
      intro he
      exact hnd.1 (he ▸ List.mem_map.mpr ⟨q, mem_of_mem_enumNodes h2, rfl⟩)
    · cases h2
      intro he
      exact hnd.1 (he ▸ List.mem_map.mpr ⟨p, mem_of_mem_enumNodes h1, rfl⟩)
    · exact ih hnd.2 h1 h2 hij

/-- Membership in the adjacency set computed by `withAdj`, characterized
without indices: the names of the other nodes with overlapping lifetimes. -/
theorem mem_adj_withAdj {ns : List MemNode} (hnd : (ns.map MemNode.name).Nodup)
    {x : MemNode} (hx : x ∈ withAdj ns) (t : String) :
    t ∈ x.adj ↔ ∃ m ∈ ns, m.name = t ∧ m.name ≠ x.name ∧
      overlap x.lifetime m.lifetime := by
  rcases List.mem_map.mp hx with ⟨p, hp, hpx⟩
  have hxname : x.name = p.2.name := by rw [← hpx]
  have hxlt : x.lifetime = p.2.lifetime := by rw [← hpx]
  have hxadj : x.adj = (enumNodes 0 ns).filterMap fun q =>
      if q.1 ≠ p.1 ∧ overlap p.2.lifetime q.2.lifetime then some q.2.name else none := by
    rw [← hpx]
  rw [hxadj]
  constructor
  · intro h
    rcases List.mem_filterMap.mp h with ⟨q, hq, he⟩
    by_cases hcond : q.1 ≠ p.1 ∧ overlap p.2.lifetime q.2.lifetime
    · rw [if_pos hcond] at he
      have ht : q.2.name = t := Option.some.inj he
      refine ⟨q.2, mem_of_mem_enumNodes hq, ht, ?_, ?_⟩
      · rw [hxname]
        exact enumNodes_names_distinct hnd hq hp hcond.1
      · rw [hxlt]
        exact hcond.2
    · rw [if_neg hcond] at he
      cases he
  · intro ⟨m, hm, ht, hne, hov⟩
    rcases mem_enumNodes_of_mem (k := 0) hm with ⟨j, hj⟩
    apply List.mem_filterMap.mpr
    refine ⟨(j, m), hj, ?_⟩
    have hjp : j ≠ p.1 := by
      intro he
      apply hne
      rw [hxname]
      have hmp : m = p.2 := by
        apply enumNodes_inj (k := 0) (l := ns) (i := p.1)
        · rw [← he]
          exact hj
        · exact hp
      rw [hmp]
    rw [if_pos ⟨hjp, by rw [← hxlt]; exact hov⟩, ht]

/-- Two lists sorted under the same descending key, that are permutations of
each other and whose keys are pairwise distinct, coincide. -/
theorem eq_of_perm_of_sorted_distinct {τ : Type} (f : τ → Nat) :
    ∀ (l₁ l₂ : List τ), l₁.Perm l₂ →
      List.Pairwise (fun a b => f b ≤ f a) l₁ →
      List.Pairwise (fun a b => f b ≤ f a) l₂ →
      (l₁.map f).Nodup → l₁ = l₂ := by
  intro l₁
  induction l₁ with
  | nil =>
    intro l₂ hp _ _ _
    exact (List.Perm.nil_eq hp).symm.symm
  | cons a t₁ ih =>
    intro l₂ hp hs₁ hs₂ hnd
    cases l₂ with
    | nil => exact absurd (List.Perm.eq_nil hp) (by simp)
    | cons b t₂ =>
      by_cases hab : a = b
      · subst hab
        have ht : t₁.Perm t₂ := hp.cons_inv
        rw [ih t₂ ht (List.pairwise_cons.mp hs₁).2 (List.pairwise_cons.mp hs₂).2
          (by rw [List.map_cons, List.nodup_cons] at hnd; exact hnd.2)]
      · exfalso
        have hain : a ∈ b :: t₂ := hp.mem_iff.mp (List.mem_cons_self _ _)
        have hat₂ : a ∈ t₂ := by
          rcases List.mem_cons.mp hain with h | h
          · exact absurd h hab
          · exact h
        have hbin : b ∈ a :: t₁ := hp.mem_iff.mpr (List.mem_cons_self _ _)
        have hbt₁ : b ∈ t₁ := by
          rcases List.mem_cons.mp hbin with h | h
          · exact absurd h.symm hab
          · exact h
        have h1 : f a ≤ f b := (List.pairwise_cons.mp hs₂).1 a hat₂
        have h2 : f b ≤ f a := (List.pairwise_cons.mp hs₁).1 b hbt₁
        rw [List.map_cons, List.nodup_cons] at hnd
        exact hnd.1 (List.mem_map.mpr ⟨b, hbt₁, (Nat.le_antisymm h1 h2).symm⟩)

/-- Pointwise equality of the observable projections plus a common adjacency
characterization yields `NEquiv` pointwise. -/
theorem forall2_of_map_proj_eq {Q : (String × Nat × (Nat × Nat)) → String → Prop} :
    ∀ {la lb : List MemNode}, la.map proj = lb.map proj →
      (∀ x ∈ la, ∀ t, t ∈ x.adj ↔ Q (proj x) t) →
      (∀ y ∈ lb, ∀ t, t ∈ y.adj ↔ Q (proj y) t) →
      List.Forall₂ NEquiv la lb := by
  intro la
  induction la with
  | nil =>
    intro lb hm _ _
    cases lb with
    | nil => exact List.Forall₂.nil
    | cons b tb => cases hm
  | cons a ta ih =>
    intro lb hm hA hB
    cases lb with
    | nil => cases hm
    | cons b tb =>
      simp only [List.map_cons, List.cons.injEq] at hm
      refine List.Forall₂.cons ⟨hm.1, ?_⟩
        (ih hm.2 (fun x hx => hA x (List.mem_cons_of_mem _ hx))
          (fun y hy => hB y (List.mem_cons_of_mem _ hy)))
      intro t
      rw [hA a (List.mem_cons_self _ _) t, hB b (List.mem_cons_self _ _) t, hm.1]

/-- C4 (amended).  The sort comparator consults only sizes, so when all
candidate sizes are distinct the produced plan does not depend on the order
in which the unordered `lifecycles` container presents its entries. -/
theorem makeSimpleReusePlan_perm_invariant_of_distinct_sizes
    (lc₁ lc₂ : List (String × Nat × Nat)) (st : List (String × Nat))
    (hperm : lc₁.Perm lc₂) (hnd : (lc₁.map Prod.fst).Nodup)
    (hsz : ((buildNodes lc₁ st).map MemNode.size).Nodup) :
    makeSimpleReusePlan lc₁ st = makeSimpleReusePlan lc₂ st := by
  have hp : (buildNodes lc₁ st).Perm (buildNodes lc₂ st) := hperm.filterMap _
  have hnd₂ : (lc₂.map Prod.fst).Nodup := ((hperm.map Prod.fst).nodup_iff).mp hnd
  have hndn₁ : ((buildNodes lc₁ st).map MemNode.name).Nodup := buildNodes_names_nodup hnd
  have hndn₂ : ((buildNodes lc₂ st).map MemNode.name).Nodup := buildNodes_names_nodup hnd₂
  have hsize_eq : ∀ l : List MemNode,
      l.map MemNode.size = (l.map proj).map (fun pr => pr.2.1) := by
    intro l
    rw [List.map_map]
    rfl
  have hprojA : (sortedNodes lc₁ st).map proj = (sortedNodes lc₂ st).map proj := by
    apply eq_of_perm_of_sorted_distinct (fun pr => pr.2.1)
    · exact (((sortedNodes_perm lc₁ st).map proj).trans
        ((withAdj_map_proj (buildNodes lc₁ st)).symm ▸ (hp.map proj).trans
          ((withAdj_map_proj (buildNodes lc₂ st)).symm ▸
            ((sortedNodes_perm lc₂ st).map proj).symm)))
    · exact (List.pairwise_map).mpr (sortedNodes_sorted lc₁ st)
    · exact (List.pairwise_map).mpr (sortedNodes_sorted lc₂ st)
    · rw [← hsize_eq]
      apply (((sortedNodes_perm lc₁ st).map MemNode.size).nodup_iff).mpr
      have : (withAdj (buildNodes lc₁ st)).map MemNode.size =
          (buildNodes lc₁ st).map MemNode.size := by
        rw [hsize_eq, hsize_eq, withAdj_map_proj]
      rw [this]
      exact hsz
  have hF2 : List.Forall₂ NEquiv (sortedNodes lc₁ st) (sortedNodes lc₂ st) := by
    apply forall2_of_map_proj_eq
      (Q := fun pr t => ∃ m ∈ buildNodes lc₁ st, m.name = t ∧ m.name ≠ pr.1 ∧
        overlap pr.2.2 m.lifetime)
      hprojA
    · intro x hx t
      have hx' := (sortedNodes_perm lc₁ st).mem_iff.mp hx
      exact mem_adj_withAdj hndn₁ hx' t
    · intro y hy t
      have hy' := (sortedNodes_perm lc₂ st).mem_iff.mp hy
      rw [mem_adj_withAdj hndn₂ hy' t]
      constructor
      · intro ⟨m, hm, h⟩
        exact ⟨m, hp.mem_iff.mpr hm, h⟩
      · intro ⟨m, hm, h⟩
        exact ⟨m, hp.mem_iff.mp hm, h⟩
  show (node2cluster (sortedNodes lc₁ st), clusterSizes (sortedNodes lc₁ st)) =
    (node2cluster (sortedNodes lc₂ st), clusterSizes (sortedNodes lc₂ st))
  rw [node2cluster_congr hF2, clusterSizes_congr hF2]

theorem makeSimpleReusePlan_perm_invariant_witness :
    makeSimpleReusePlan [("a", (0, 1)), ("b", (1, 2))] [("a", 5), ("b", 3)] =
      makeSimpleReusePlan [("b", (1, 2)), ("a", (0, 1))] [("a", 5), ("b", 3)] :=
  makeSimpleReusePlan_perm_invariant_of_distinct_sizes
    [("a", (0, 1)), ("b", (1, 2))] [("b", (1, 2)), ("a", (0, 1))]
    [("a", 5), ("b", 3)] (List.Perm.swap _ _ _) (by decide) (by decide)

/-- C4 counterexample.  Two presentations of the same lifecycles map (a
permutation of each other) with equal candidate sizes produce different
`node2cluster` maps: the comparator breaks no ties by name. -/
theorem makeSimpleReusePlan_tie_order_dependent :
    ([("y", ((2 : Nat), (3 : Nat))), ("x", (0, 1))]).Perm [("x", ((0 : Nat), (1 : Nat))), ("y", (2, 3))]
    ∧ (makeSimpleReusePlan [("x", (0, 1)), ("y", (2, 3))] [("x", 10), ("y", 10)]).1.lookup "x" ≠
      (makeSimpleReusePlan [("y", (2, 3)), ("x", (0, 1))] [("x", 10), ("y", 10)]).1.lookup "x" :=
  ⟨List.Perm.swap _ _ _, by decide⟩

/-! ### Lemmas about `CollectVarMemorySize` -/

/-- The size-table entry one variable node contributes, if any: the branch
structure of the loop body of lines 184-201. -/
def sizeEntry (g : Graph) (v : VarNode) : Option (String × Nat) :=
  match v.desc with
  | some d =>
    if d.isLod && !(blackList g).contains v.name then
      if d.persistable then none else some (v.name, tensorBytes d)
    else none
  | none => none

theorem sizeEntry_mk_none (g : Graph) (nm : String) :
    sizeEntry g ⟨nm, none⟩ = none := rfl

theorem sizeEntry_mk_some (g : Graph) (nm : String) (d : VarDesc) :
    sizeEntry g ⟨nm, some d⟩ =
      if d.isLod && !(blackList g).contains nm then
        if d.persistable then none else some (nm, tensorBytes d)
      else none := rfl

theorem sizeEntry_key {g : Graph} {v : VarNode} {e : String × Nat}
    (h : sizeEntry g v = some e) : e.1 = v.name := by
  rcases v with ⟨nm, desc⟩
  cases desc with
  | none => rw [sizeEntry_mk_none] at h; cases h
  | some d =>
    rw [sizeEntry_mk_some] at h
    by_cases h1 : (d.isLod && !(blackList g).contains nm) = true
    · rw [if_pos h1] at h
      by_cases h2 : d.persistable = true
      · rw [if_pos h2] at h; cases h
      · rw [if_neg h2] at h
        cases h
        rfl
    · rw [if_neg h1] at h; cases h

theorem sizeEntry_of_desc_some {g : Graph} {v : VarNode} {d : VarDesc}
    (hd : v.desc = some d) :
    sizeEntry g v =
      if d.isLod && !(blackList g).contains v.name then
        if d.persistable then none else some (v.name, tensorBytes d)
      else none := by
  rcases v with ⟨nm, desc⟩
  have hd2 : desc = some d := hd
  subst hd2
  rfl

theorem sizeEntry_of_desc_none {g : Graph} {v : VarNode} (hd : v.desc = none) :
    sizeEntry g v = none := by
  rcases v with ⟨nm, desc⟩
  have hd2 : desc = none := hd
  subst hd2
  rfl

theorem collectVarMemorySize_fold_eq (g : Graph) :
    ∀ (vs : List VarNode) (tbl : List (String × Nat)),
      (vs.map VarNode.name).Nodup → (∀ v ∈ vs, v.name ∉ keys tbl) →
      vs.foldl
        (fun tbl v =>
          match v.desc with
          | some d =>
            if d.isLod && !(blackList g).contains v.name then
              if d.persistable then tbl else tblSet tbl v.name (tensorBytes d)
            else tbl
          | none => tbl)
        tbl = tbl ++ vs.filterMap (sizeEntry g) := by
  intro vs
  induction vs with
  | nil => intro tbl _ _; simp
  | cons v rest ih =>
    intro tbl hnd hfresh
    rw [List.map_cons, List.nodup_cons] at hnd
    have hstep :
        (match v.desc with
          | some d =>
            if d.isLod && !(blackList g).contains v.name then
              if d.persistable then tbl else tblSet tbl v.name (tensorBytes d)
            else tbl
          | none => tbl) =
        tbl ++ (sizeEntry g v).toList := by
      cases hd : v.desc with
      | none =>
        rw [sizeEntry_of_desc_none hd]
        simp
      | some d =>
        rw [sizeEntry_of_desc_some hd]
        show (if d.isLod && !(blackList g).contains v.name then
            if d.persistable then tbl else tblSet tbl v.name (tensorBytes d)
          else tbl) =
          tbl ++ (if d.isLod && !(blackList g).contains v.name then
            if d.persistable then none else some (v.name, tensorBytes d)
          else none : Option (String × Nat)).toList
        by_cases h1 : (d.isLod && !(blackList g).contains v.name) = true
        · rw [if_pos h1, if_pos h1]
          by_cases h2 : d.persistable = true
          · rw [if_pos h2, if_pos h2]
            simp
          · rw [if_neg h2, if_neg h2]
            have hnone : (tbl.lookup v.name).isSome = false := by
              rw [lookup_eq_none_of_not_mem_keys
                (hfresh v (List.mem_cons_self _ _))]
              rfl
            unfold tblSet
            rw [hnone]
            simp
        · rw [if_neg h1, if_neg h1]
          simp
    simp only [List.foldl_cons]
    rw [hstep]
    rw [ih (tbl ++ (sizeEntry g v).toList) hnd.2 ?_]
    · rw [List.filterMap_cons]
      cases he : sizeEntry g v with
      | none => simp [he]
      | some e => simp [he]
    · intro w hw
      have h1 : w.name ∉ keys tbl := hfresh w (List.mem_cons_of_mem _ hw)
      intro hin
      rw [keys, List.map_append, List.mem_append] at hin
      rcases hin with h | h
      · exact h1 h
      · cases he : sizeEntry g v with
        | none => rw [he] at h; cases h
        | some e =>
          rw [he] at h
          simp only [Option.toList_some, List.map_cons, List.map_nil,
            List.mem_singleton] at h
          rw [sizeEntry_key he] at h
          exact hnd.1 (h ▸ List.mem_map.mpr ⟨w, hw, rfl⟩)

theorem collectVarMemorySize_eq {g : Graph}
    (hnd : (g.vars.map VarNode.name).Nodup) :
    collectVarMemorySize g = g.vars.filterMap (sizeEntry g) := by
  unfold collectVarMemorySize
  rw [collectVarMemorySize_fold_eq g g.vars [] hnd (by intro v _ h; cases h)]
  rfl

theorem collectVarMemorySize_keys_sublist {g : Graph}
    (hnd : (g.vars.map VarNode.name).Nodup) :
    (keys (collectVarMemorySize g)).Sublist (g.vars.map VarNode.name) := by
  rw [collectVarMemorySize_eq hnd]
  induction g.vars with
  | nil => simp [keys]
  | cons v rest ih =>
    rw [List.filterMap_cons]
    cases he : sizeEntry g v with
    | none =>
      rw [List.map_cons]
      exact ih.cons v.name
    | some e =>
      rw [List.map_cons, keys, List.map_cons, sizeEntry_key he]
      exact List.Sublist.cons₂ v.name ih

theorem lookup_collectVarMemorySize {g : Graph}
    (hnd : (g.vars.map VarNode.name).Nodup) {v : VarNode} (hv : v ∈ g.vars) :
    (collectVarMemorySize g).lookup v.name = (sizeEntry g v).map Prod.snd := by
  cases he : sizeEntry g v with
  | some e =>
    have hkeysnd : (keys (collectVarMemorySize g)).Nodup :=
      (collectVarMemorySize_keys_sublist hnd).nodup hnd
    have hmem : (v.name, e.2) ∈ collectVarMemorySize g := by
      rw [collectVarMemorySize_eq hnd]
      apply List.mem_filterMap.mpr
      refine ⟨v, hv, ?_⟩
      rw [he, ← sizeEntry_key he]
    rw [lookup_eq_some_of_mem_of_nodup hkeysnd hmem]
    rfl
  | none =>
    apply lookup_eq_none_of_not_mem_keys
    intro hin
    rw [collectVarMemorySize_eq hnd] at hin
    rcases List.mem_map.mp hin with ⟨p, hp, hpn⟩
    rcases List.mem_filterMap.mp hp with ⟨w, hw, hwe⟩
    have hwname : w.name = v.name := by rw [← sizeEntry_key hwe, hpn]
    have : w = v := List.inj_on_of_nodup_map hnd hw hv hwname
    rw [this, he] at hwe
    cases hwe

theorem toInt32_of_nonneg_lt {x : Int} (h0 : 0 ≤ x) (h1 : x < 2147483648) :
    toInt32 x = x := by
  unfold toInt32
  omega

theorem fixDims_one_le {shape : List Int} (h : ∀ i ∈ shape, i ≠ 0) :
    ∀ v ∈ fixDims shape, 1 ≤ v := by
  intro v hv
  rcases List.mem_map.mp hv with ⟨i, hi, he⟩
  subst he
  by_cases hneg : i < 0
  · rw [if_pos hneg]
  · rw [if_neg hneg]
    have := h i hi
    omega

theorem foldl_mul_le_foldl : ∀ (dims : List Int) (acc : Int), 1 ≤ acc →
    (∀ v ∈ dims, 1 ≤ v) → acc ≤ dims.foldl (· * ·) acc := by
  intro dims
  induction dims with
  | nil => intro acc _ _; exact Int.le_refl acc
  | cons v rest ih =>
    intro acc hacc hall
    have hv := hall v (List.mem_cons_self _ _)
    have h0 : (0 : Int) ≤ acc := le_trans (by norm_num) hacc
    have hacc2 : (1 : Int) ≤ acc * v := by
      have := mul_le_mul hacc hv (by norm_num) h0
      rw [one_mul] at this
      exact this
    rw [List.foldl_cons]
    exact le_trans (le_mul_of_one_le_right h0 hv)
      (ih (acc * v) hacc2 (fun w hw => hall w (List.mem_cons_of_mem _ hw)))

/-- When every dimension is at least 1 and the exact product stays below
`2^31`, every intermediate `int` narrowing of line 196 is the identity. -/
theorem intAccumulate_foldl_eq : ∀ (dims : List Int) (acc : Int), 1 ≤ acc →
    (∀ v ∈ dims, 1 ≤ v) → dims.foldl (· * ·) acc < 2147483648 →
    dims.foldl (fun a v => toInt32 (a * v)) acc = dims.foldl (· * ·) acc := by
  intro dims
  induction dims with
  | nil => intro acc _ _ _; rfl
  | cons v rest ih =>
    intro acc hacc hall hbound
    rw [List.foldl_cons] at hbound
    rw [List.foldl_cons, List.foldl_cons]
    have hv := hall v (List.mem_cons_self _ _)
    have h0 : (0 : Int) ≤ acc := le_trans (by norm_num) hacc
    have hacc2 : (1 : Int) ≤ acc * v := by
      have := mul_le_mul hacc hv (by norm_num) h0
      rw [one_mul] at this
      exact this
    have hrest : ∀ w ∈ rest, 1 ≤ w := fun w hw => hall w (List.mem_cons_of_mem _ hw)
    have hlt : acc * v < 2147483648 :=
      lt_of_le_of_lt (foldl_mul_le_foldl rest (acc * v) hacc2 hrest) hbound
    rw [toInt32_of_nonneg_lt (le_trans (by norm_num) hacc2) hlt]
    exact ih (acc * v) hacc2 hrest hbound

/-- C6 (amended).  A dense-tensor variable that is neither persistent nor
blacklisted is recorded with the size the program computes: the running
product of the dims (negatives replaced by 1), narrowed to a 32-bit `int` at
every step, converted to `size_t` and multiplied by the dtype byte width
modulo `2^64`.  Every other variable is absent and every table entry arises
this way; and whenever no dimension is 0, the exact product is below `2^31`
and the byte count below `2^64`, the recorded size equals the spec's exact
`product(dims) * dtypeByteWidth` (at larger products the `int` accumulator
wraps, see the counterexample). -/
theorem collectVarMemorySize_sizes (g : Graph)
    (hnd : (g.vars.map VarNode.name).Nodup) :
    (∀ v ∈ g.vars, ∀ d, v.desc = some d →
      (collectVarMemorySize g).lookup v.name =
        if d.isLod = true ∧ d.persistable = false ∧ (blackList g).contains v.name = false
        then some (tensorBytes d) else none)
    ∧ (∀ v ∈ g.vars, v.desc = none → (collectVarMemorySize g).lookup v.name = none)
    ∧ (∀ e ∈ collectVarMemorySize g, ∃ v ∈ g.vars, ∃ d, v.desc = some d ∧
        e.1 = v.name ∧ d.isLod = true ∧ d.persistable = false ∧
        (blackList g).contains v.name = false ∧ e.2 = tensorBytes d)
    ∧ (∀ d : VarDesc, (∀ i ∈ d.shape, i ≠ 0) →
        (fixDims d.shape).foldl (· * ·) 1 < 2147483648 →
        ((fixDims d.shape).foldl (· * ·) 1).toNat * d.dtypeSize < 18446744073709551616 →
        tensorBytes d = ((fixDims d.shape).foldl (· * ·) 1).toNat * d.dtypeSize) := by
  refine ⟨?_, ?_, ?_, ?_⟩
  · intro v hv d hd
    rw [lookup_collectVarMemorySize hnd hv, sizeEntry_of_desc_some hd]
    by_cases h1 : d.isLod = true ∧ d.persistable = false ∧
        (blackList g).contains v.name = false
    · rw [if_pos h1]
      have hcond : (d.isLod && !(blackList g).contains v.name) = true := by
        rw [h1.1, h1.2.2]
        rfl
      rw [if_pos hcond, if_neg (by rw [h1.2.1]; intro h; cases h)]
      rfl
    · rw [if_neg h1]
      by_cases h2 : (d.isLod && !(blackList g).contains v.name) = true
      · rw [if_pos h2]
        rcases Bool.and_eq_true_iff.mp h2 with ⟨hl, hb⟩
        have hbl : (blackList g).contains v.name = false := by
          cases hc : (blackList g).contains v.name
          · rfl
          · rw [hc] at hb; cases hb
        have hpers : d.persistable = true := by
          by_contra hp
          rw [Bool.not_eq_true] at hp
          exact h1 ⟨hl, hp, hbl⟩
        rw [if_pos hpers]
        rfl
      · rw [if_neg h2]
        rfl
  · intro v hv hd
    rw [lookup_collectVarMemorySize hnd hv, sizeEntry_of_desc_none hd]
    rfl
  · intro e he
    rw [collectVarMemorySize_eq hnd] at he
    rcases List.mem_filterMap.mp he with ⟨v, hv, hve⟩
    refine ⟨v, hv, ?_⟩
    cases hd : v.desc with
    | none => rw [sizeEntry_of_desc_none hd] at hve; cases hve
    | some d =>
      rw [sizeEntry_of_desc_some hd] at hve
      by_cases h1 : (d.isLod && !(blackList g).contains v.name) = true
      · rw [if_pos h1] at hve
        by_cases h2 : d.persistable = true
        · rw [if_pos h2] at hve; cases hve
        · rw [if_neg h2] at hve
          cases hve
          rcases Bool.and_eq_true_iff.mp h1 with ⟨hl, hb⟩
          have hbl : (blackList g).contains v.name = false := by
            cases hc : (blackList g).contains v.name
            · rfl
            · rw [hc] at hb; cases hb
          rw [Bool.not_eq_true] at h2
          exact ⟨d, rfl, rfl, hl, h2, hbl, rfl⟩
      · rw [if_neg h1] at hve; cases hve
  · intro d hnz hsmall hbytes
    unfold tensorBytes intAccumulate
    rw [intAccumulate_foldl_eq (fixDims d.shape) 1 (Int.le_refl 1)
      (fixDims_one_le hnz) hsmall]
    have hP1 : (1 : Int) ≤ (fixDims d.shape).foldl (· * ·) 1 :=
      foldl_mul_le_foldl (fixDims d.shape) 1 (Int.le_refl 1) (fixDims_one_le hnz)
    have hU : toUInt64 ((fixDims d.shape).foldl (· * ·) 1) =
        ((fixDims d.shape).foldl (· * ·) 1).toNat := by
      unfold toUInt64
      rw [Int.emod_eq_of_lt (by omega) (by omega)]
    rw [hU]
    exact Nat.mod_eq_of_lt hbytes

/-! ### Concrete graphs used to instantiate and refute claims -/

/-- A feed operator whose output `x` is a dense non-persistent tensor
consumed by a `relu` operator producing `y`. -/
def feedGraph : Graph :=
  { ops := [⟨"feed", [], ["x"]⟩, ⟨"relu", ["x"], ["y"]⟩],
    vars := [⟨"x", some ⟨[2], false, 4, true⟩⟩, ⟨"y", some ⟨[2], false, 4, true⟩⟩] }

/-- A persistent (parameter) tensor `w` read by a `matmul` operator. -/
def persistGraph : Graph :=
  { ops := [⟨"matmul", ["w"], ["y"]⟩],
    vars := [⟨"w", some ⟨[2, 2], true, 4, true⟩⟩, ⟨"y", some ⟨[2, 2], false, 4, true⟩⟩] }

/-- A blacklisted (`while`) operator touching variables `w` and `z`. -/
def whileGraph : Graph :=
  { ops := [⟨"while", ["w"], ["z"]⟩],
    vars := [⟨"w", some ⟨[3], false, 4, true⟩⟩, ⟨"z", some ⟨[3], false, 4, true⟩⟩] }

/-- A persistent variable `p` with a dynamic (negative) shape dimension whose
only consumer is a `fetch` operator, and which no operator produces. -/
def fetchGraph : Graph :=
  { ops := [⟨"fetch", ["p"], ["fout"]⟩],
    vars := [⟨"p", some ⟨[-1], true, 4, true⟩⟩, ⟨"fout", none⟩] }

/-- A dense variable `t` with shape `[65536, 65536]`: its exact element
count is `2^32`, which the `int` accumulator of line 196 wraps to 0. -/
def truncGraph : Graph :=
  { ops := [⟨"relu", ["t"], ["u"]⟩],
    vars := [⟨"t", some ⟨[65536, 65536], false, 4, true⟩⟩,
             ⟨"u", some ⟨[2], false, 4, true⟩⟩] }

theorem collectVarMemorySize_sizes_witness :
    ((collectVarMemorySize feedGraph).lookup "x" =
      if (⟨[2], false, 4, true⟩ : VarDesc).isLod = true ∧
         (⟨[2], false, 4, true⟩ : VarDesc).persistable = false ∧
         (blackList feedGraph).contains "x" = false
      then some (tensorBytes ⟨[2], false, 4, true⟩) else none)
    ∧ tensorBytes ⟨[2], false, 4, true⟩ =
        ((fixDims (⟨[2], false, 4, true⟩ : VarDesc).shape).foldl (· * ·) 1).toNat *
          (⟨[2], false, 4, true⟩ : VarDesc).dtypeSize :=
  ⟨(collectVarMemorySize_sizes feedGraph (by decide)).1
      ⟨"x", some ⟨[2], false, 4, true⟩⟩ (by decide) ⟨[2], false, 4, true⟩ rfl,
   (collectVarMemorySize_sizes feedGraph (by decide)).2.2.2
      ⟨[2], false, 4, true⟩ (by decide) (by decide) (by decide)⟩

/-- C6 counterexample.  For the dense, non-persistent, non-blacklisted
variable `t` of shape `[65536, 65536]` and byte width 4 (defined behavior:
only an implementation-defined modular narrowing is involved), the program
records size 0 - the `int` accumulate narrows `65536 * 65536 = 2^32` to 0 -
and not the claim's exact `product(dims) * dtypeByteWidth = 2^34`. -/
theorem collectVarMemorySize_truncates :
    (collectVarMemorySize truncGraph).lookup "t" = some 0
    ∧ ((fixDims [65536, 65536]).foldl (· * ·) 1).toNat * 4 = 17179869184
    ∧ (0 : Nat) ≠ 17179869184 := by
  decide

/-- The full planning pipeline of `RunImpl` minus the registry write. -/
def planOf (g : Graph) :
    Except String (List (String × String) × List (String × Int)) :=
  (collectLifeCycle g).bind fun lc =>
    .ok (makeSimpleReusePlan lc (collectVarMemorySize g))

/-- Every key of the produced `node2cluster` has a size-table entry. -/
theorem plan_keys_have_size {lc : List (String × Nat × Nat)}
    {st : List (String × Nat)} {k : String}
    (hk : k ∈ keys (makeSimpleReusePlan lc st).1) : ∃ s, st.lookup k = some s := by
  rw [makeSimpleReusePlan_fst, node2cluster_keys] at hk
  rcases List.mem_map.mp hk with ⟨x, hx, hxn⟩
  have hx1 : x ∈ sortedNodes lc st := (clusters_flatten_perm _).mem_iff.mp hx
  have h2 := (sortedNodes_mem_inv hx1).2
  exact ⟨x.size, by rw [← hxn]; exact h2⟩

/-- C3 (amended).  Persistent variables are excluded from the size table and
hence never appear as keys of `node2cluster`; feed outputs, by contrast, can
(see the counterexample). -/
theorem persistent_not_in_plan (g : Graph)
    (hnd : (g.vars.map VarNode.name).Nodup) {v : VarNode} (hv : v ∈ g.vars)
    {d : VarDesc} (hd : v.desc = some d) (hp : d.persistable = true) :
    (collectVarMemorySize g).lookup v.name = none
    ∧ ∀ lc, v.name ∉ keys (makeSimpleReusePlan lc (collectVarMemorySize g)).1 := by
  have h1 : (collectVarMemorySize g).lookup v.name = none := by
    rw [lookup_collectVarMemorySize hnd hv, sizeEntry_of_desc_some hd]
    by_cases hc : (d.isLod && !(blackList g).contains v.name) = true
    · rw [if_pos hc, if_pos hp]
      rfl
    · rw [if_neg hc]
      rfl
  refine ⟨h1, ?_⟩
  intro lc hk
  rcases plan_keys_have_size hk with ⟨s, hs⟩
  rw [h1] at hs
  cases hs

theorem persistent_not_in_plan_witness :
    (collectVarMemorySize persistGraph).lookup "w" = none
    ∧ "w" ∉ keys (makeSimpleReusePlan [("w", (0, 0))]
        (collectVarMemorySize persistGraph)).1 :=
  have h := persistent_not_in_plan persistGraph (by decide)
    (v := ⟨"w", some ⟨[2, 2], true, 4, true⟩⟩) (by decide)
    (d := ⟨[2, 2], true, 4, true⟩) rfl rfl
  ⟨h.1, h.2 [("w", (0, 0))]⟩

/-- C3 counterexample.  The feed output `x` of `feedGraph` is a key of the
produced `node2cluster`: feed outputs do become reuse-plan candidates (the
operator blacklist does not contain `feed`, so `x` receives a size entry, and
the feed branch gives it the lifetime `[0, INT_MAX]`). -/
theorem feed_output_in_plan_counterexample :
    "x" ∈ (feedGraph.ops.filter fun o => o.opType = "feed").flatMap OpNode.outputs
    ∧ planOf feedGraph = .ok ([("x", "x"), ("y", "y")], [("x", 8), ("y", 8)])
    ∧ "x" ∈ keys ([("x", "x"), ("y", "y")] : List (String × String)) := by
  refine ⟨by decide, by rfl, by decide⟩

/-- C7.  Any variable touched (as input or output) by an operator whose type
is in the literal blacklist is absent from the size table and hence from
`node2cluster`, regardless of its lifetime. -/
theorem blacklisted_var_absent (g : Graph)
    (hnd : (g.vars.map VarNode.name).Nodup) {v : VarNode} (hv : v ∈ g.vars)
    {o : OpNode} (ho : o ∈ g.ops) (hbad : o.opType ∈ invalidOps)
    (ht : v.name ∈ o.inputs ∨ v.name ∈ o.outputs) :
    (collectVarMemorySize g).lookup v.name = none
    ∧ ∀ lc, v.name ∉ keys (makeSimpleReusePlan lc (collectVarMemorySize g)).1 := by
  have hincident : o ∈ varProducers g v.name ++ varConsumers g v.name := by
    apply List.mem_append.mpr
    rcases ht with h | h
    · right
      exact List.mem_filter.mpr ⟨ho, by exact decide_eq_true h⟩
    · left
      exact List.mem_filter.mpr ⟨ho, by exact decide_eq_true h⟩
  have hvalid : validVar g v.name = false := by
    by_contra hva
    rw [Bool.not_eq_false] at hva
    have hall := List.all_eq_true.mp hva o hincident
    rw [Bool.not_eq_true'] at hall
    have hc : invalidOps.contains o.opType = true := List.elem_eq_true_of_mem hbad
    rw [hc] at hall
    cases hall
  have h1 : (collectVarMemorySize g).lookup v.name = none := by
    rw [lookup_collectVarMemorySize hnd hv]
    cases hd : v.desc with
    | none =>
      rw [sizeEntry_of_desc_none hd]
      rfl
    | some d =>
      rw [sizeEntry_of_desc_some hd]
      cases hLod : d.isLod with
      | false => rfl
      | true =>
        have hm : (match v.desc with | some d3 => d3.isLod | none => false) = true := by
          rw [hd]
          exact hLod
        have hbl : v.name ∈ blackList g := by
          unfold blackList
          apply List.mem_map.mpr
          refine ⟨v, List.mem_filter.mpr ⟨hv, ?_⟩, rfl⟩
          show ((match v.desc with | some d3 => d3.isLod | none => false)
            && !validVar g v.name) = true
          rw [hm, hvalid]
          rfl
        have hcont : (blackList g).contains v.name = true :=
          List.elem_eq_true_of_mem hbl
        rw [hcont]
        rfl
  refine ⟨h1, ?_⟩
  intro lc hk
  rcases plan_keys_have_size hk with ⟨s, hs⟩
  rw [h1] at hs
  cases hs

theorem blacklisted_var_absent_witness :
    (collectVarMemorySize whileGraph).lookup "w" = none
    ∧ "w" ∉ keys (makeSimpleReusePlan [("w", (0, 5))]
        (collectVarMemorySize whileGraph)).1 :=
  have h := blacklisted_var_absent whileGraph (by decide)
    (v := ⟨"w", some ⟨[3], false, 4, true⟩⟩) (by decide)
    (o := ⟨"while", ["w"], ["z"]⟩) (by decide) (by decide)
    (Or.inl (by decide))
  ⟨h.1, h.2 [("w", (0, 5))]⟩

/-! ### The abort condition of `CollectLifeCycle` -/

theorem isErr_error {ε α : Type} (e : ε) : isErr (Except.error e : Except ε α) = true := rfl

theorem isErr_ok {ε α : Type} (a : α) : isErr (Except.ok a : Except ε α) = false := rfl

theorem exists_ok_of_not_isErr {ε α : Type} {e : Except ε α}
    (h : isErr e = false) : ∃ a, e = .ok a := by
  cases e with
  | error msg => cases h
  | ok a => exact ⟨a, rfl⟩

theorem exists_error_of_isErr {ε α : Type} {e : Except ε α}
    (h : isErr e = true) : ∃ msg, e = .error msg := by
  cases e with
  | error msg => exact ⟨msg, rfl⟩
  | ok a => cases h

/-- The condition under which `processVar` raises the shape-validation error:
the name resolves to a persistent variable, not produced by a `fetch`
operator, with a negative shape dimension. -/
def badPersist (g : Graph) (nm : String) : Bool :=
  match findVar g nm with
  | some v =>
    match v.desc with
    | some d => d.persistable && !producedByFetch g v.name && hasNegDim d
    | none => false
  | none => false

theorem processVar_isErr (g : Graph) (step : Nat) (lcs : List (String × Nat × Nat))
    (nm : String) : isErr (processVar g step lcs nm) = badPersist g nm := by
  unfold processVar badPersist
  cases findVar g nm with
  | none => rfl
  | some v =>
    cases v with
    | mk vn vd =>
      cases vd with
      | none => rfl
      | some d =>
        show isErr
            (if d.persistable then
              if producedByFetch g vn then Except.ok lcs
              else if hasNegDim d then Except.error shapeErrMsg else Except.ok lcs
            else .ok (lcTouch lcs nm step)) =
          (d.persistable && !producedByFetch g vn && hasNegDim d)
        cases hp : d.persistable with
        | false => rfl
        | true =>
          cases hq : producedByFetch g vn with
          | true => rfl
          | false =>
            cases hr : hasNegDim d with
            | true => rfl
            | false => rfl

theorem foldlM_processVar_isErr (g : Graph) (step : Nat) :
    ∀ (nms : List String) (lcs : List (String × Nat × Nat)),
      isErr (nms.foldlM (fun l nm => processVar g step l nm) lcs) =
        nms.any (badPersist g) := by
  intro nms
  induction nms with
  | nil => intro lcs; rfl
  | cons nm rest ih =>
    intro lcs
    rw [List.foldlM_cons, List.any_cons]
    cases hb : badPersist g nm with
    | true =>
      have herr : isErr (processVar g step lcs nm) = true := by
        rw [processVar_isErr, hb]
      rcases exists_error_of_isErr herr with ⟨msg, hmsg⟩
      rw [hmsg]
      rfl
    | false =>
      have hok : isErr (processVar g step lcs nm) = false := by
        rw [processVar_isErr, hb]
      rcases exists_ok_of_not_isErr hok with ⟨l2, hl⟩
      rw [hl]
      show isErr (List.foldlM (fun l nm => processVar g step l nm) l2 rest) =
        (false || rest.any (badPersist g))
      rw [ih l2]
      rfl

theorem processOp_isErr (g : Graph) (st : List (String × Nat × Nat) × Nat)
    (op : OpNode) :
    isErr (processOp g st op) =
      (!(op.opType == "feed") && (op.inputs ++ op.outputs).any (badPersist g)) := by
  unfold processOp
  by_cases hf : op.opType = "feed"
  · rw [if_pos hf, beq_iff_eq.mpr hf]
    rfl
  · rw [if_neg hf, beq_eq_false_iff_ne.mpr hf]
    have hfold := foldlM_processVar_isErr g st.2 (op.inputs ++ op.outputs) st.1
    cases hx : (op.inputs ++ op.outputs).foldlM
        (fun l nm => processVar g st.2 l nm) st.1 with
    | error msg =>
      rw [hx] at hfold
      show true = (!false && (op.inputs ++ op.outputs).any (badPersist g))
      rw [← hfold]
      rfl
    | ok l2 =>
      rw [hx] at hfold
      show false = (!false && (op.inputs ++ op.outputs).any (badPersist g))
      rw [← hfold]
      rfl

theorem collectLifeCycle_isErr (g : Graph) :
    isErr (collectLifeCycle g) =
      g.ops.any fun op =>
        !(op.opType == "feed") && (op.inputs ++ op.outputs).any (badPersist g) := by
  unfold collectLifeCycle
  have hgen : ∀ (ops : List OpNode) (st : List (String × Nat × Nat) × Nat),
      isErr ((ops.foldlM (fun st op => processOp g st op) st).bind
          fun st2 => Except.ok st2.1) =
        ops.any fun op =>
          !(op.opType == "feed") && (op.inputs ++ op.outputs).any (badPersist g) := by
    intro ops
    induction ops with
    | nil => intro st; rfl
    | cons op rest ih =>
      intro st
      rw [List.foldlM_cons, List.any_cons]
      cases hb : (!(op.opType == "feed") &&
          (op.inputs ++ op.outputs).any (badPersist g)) with
      | true =>
        have herr : isErr (processOp g st op) = true := by
          rw [processOp_isErr, hb]
        rcases exists_error_of_isErr herr with ⟨msg, hmsg⟩
        rw [hmsg]
        rfl
      | false =>
        have hok : isErr (processOp g st op) = false := by
          rw [processOp_isErr, hb]
        rcases exists_ok_of_not_isErr hok with ⟨st2, hst⟩
        rw [hst]
        show isErr ((rest.foldlM (fun st op => processOp g st op) st2).bind
            fun st3 => Except.ok st3.1) =
          (false || rest.any fun op =>
            !(op.opType == "feed") && (op.inputs ++ op.outputs).any (badPersist g))
        rw [ih st2]
        rfl
  exact hgen g.ops ([], 0)

theorem badPersist_eq_true_iff (g : Graph) (nm : String) :
    badPersist g nm = true ↔
      ∃ v, findVar g nm = some v ∧ ∃ d, v.desc = some d ∧
        d.persistable = true ∧ producedByFetch g v.name = false ∧
        hasNegDim d = true := by
  unfold badPersist
  cases hf : findVar g nm with
  | none =>
    constructor
    · intro h
      exact Bool.noConfusion h
    · intro ⟨v, hv, _⟩
      exact Option.noConfusion hv
  | some v =>
    cases v with
    | mk vn vd =>
      cases vd with
      | none =>
        constructor
        · intro h
          exact Bool.noConfusion h
        · intro ⟨w, hw, d, hd, _⟩
          have hw2 : w = ⟨vn, none⟩ := (Option.some.inj hw).symm
          subst hw2
          exact Option.noConfusion hd
      | some d =>
        constructor
        · intro h
          have h2 : (d.persistable && !producedByFetch g vn && hasNegDim d) = true := h
          rcases Bool.and_eq_true_iff.mp h2 with ⟨h3, hneg⟩
          rcases Bool.and_eq_true_iff.mp h3 with ⟨hp, hq⟩
          refine ⟨⟨vn, some d⟩, rfl, d, rfl, hp, ?_, hneg⟩
          cases hqq : producedByFetch g vn with
          | false => rfl
          | true =>
            rw [hqq] at hq
            exact Bool.noConfusion hq
        · intro ⟨w, hw, d2, hd2, hp, hq, hr⟩
          have hw2 : w = ⟨vn, some d⟩ := (Option.some.inj hw).symm
          subst hw2
          have hdd : d = d2 := Option.some.inj hd2
          subst hdd
          have hq2 : producedByFetch g vn = false := hq
          show (d.persistable && !producedByFetch g vn && hasNegDim d) = true
          rw [hp, hq2, hr]
          rfl

/-- C8 (amended).  `CollectLifeCycle` aborts with the shape-validation error
iff some non-feed operator references (as input or output) a variable that is
persistent, has a negative shape dimension, and is not produced by a `fetch`
operator - the code's fetch exception is on the variable's producers, not on
its consumers. -/
theorem collectLifeCycle_isErr_iff (g : Graph) :
    isErr (collectLifeCycle g) = true ↔
      ∃ op ∈ g.ops, op.opType ≠ "feed" ∧
        ∃ nm ∈ op.inputs ++ op.outputs, ∃ v, findVar g nm = some v ∧
          ∃ d, v.desc = some d ∧ d.persistable = true ∧
            producedByFetch g v.name = false ∧ hasNegDim d = true := by
  rw [collectLifeCycle_isErr, List.any_eq_true]
  constructor
  · intro ⟨op, hop, hcond⟩
    rcases Bool.and_eq_true_iff.mp hcond with ⟨h1, h2⟩
    refine ⟨op, hop, ?_, ?_⟩
    · intro he
      rw [beq_iff_eq.mpr he] at h1
      cases h1
    · rcases List.any_eq_true.mp h2 with ⟨nm, hnm, hbad⟩
      exact ⟨nm, hnm, (badPersist_eq_true_iff g nm).mp hbad⟩
  · intro ⟨op, hop, hne, nm, hnm, hbad⟩
    refine ⟨op, hop, ?_⟩
    apply Bool.and_eq_true_iff.mpr
    constructor
    · rw [beq_eq_false_iff_ne.mpr hne]
      rfl
    · exact List.any_eq_true.mpr ⟨nm, hnm, (badPersist_eq_true_iff g nm).mpr hbad⟩

/-- C8 counterexample.  In `fetchGraph` the persistent variable `p` with a
negative shape dimension is solely consumed by a terminal `fetch` operator
(and produced by nothing), yet `CollectLifeCycle` aborts: the code's
exception requires a `fetch` producer, not a `fetch`-only consumer. -/
theorem collectLifeCycle_fetch_consumer_aborts :
    (fetchGraph.ops.filter fun o => "p" ∈ o.inputs).all
        (fun o => o.opType == "fetch") = true
    ∧ varProducers fetchGraph "p" = []
    ∧ isErr (collectLifeCycle fetchGraph) = true := by
  refine ⟨by decide, by decide, ?_⟩
  rfl

theorem collectLifeCycle_isErr_iff_witness :
    isErr (collectLifeCycle fetchGraph) = true :=
  (collectLifeCycle_isErr_iff fetchGraph).mpr
    ⟨⟨"fetch", ["p"], ["fout"]⟩, by decide, by decide, "p", by decide,
      ⟨"p", some ⟨[-1], true, 4, true⟩⟩, by decide,
      ⟨[-1], true, 4, true⟩, rfl, rfl, by decide, rfl⟩

/-! ### `RunImpl` and the results registry -/

/-- C5 (amended).  When the memory-optimization flag is off, `RunImpl` is a
no-op and the registry is unchanged; when it is on and lifetime collection
succeeds, `RunImpl` publishes exactly one value - the `node2cluster` map, not
`cluster_size` - under `(root_predictor_id, "memory_optimize_pass")`. -/
theorem runImpl_registry (a : Argument) (reg : Registry) :
    (a.enable_memory_optim = false → runImpl a reg = .ok reg)
    ∧ (∀ lc, a.enable_memory_optim = true →
        collectLifeCycle a.main_graph = .ok lc →
        runImpl a reg = .ok (registrySet reg
          (a.root_predictor_id, "memory_optimize_pass")
          (.strMap (makeSimpleReusePlan lc
            (collectVarMemorySize a.main_graph)).1))) := by
  constructor
  · intro h
    unfold runImpl
    rw [h]
    rfl
  · intro lc he hlc
    unfold runImpl
    rw [he, hlc]
    rfl

theorem runImpl_registry_witness :
    runImpl ⟨false, 3, feedGraph⟩ [] = .ok []
    ∧ runImpl ⟨true, 7, feedGraph⟩ [] = .ok (registrySet []
        ((7 : Int), "memory_optimize_pass")
        (.strMap (makeSimpleReusePlan [("x", (0, intMax)), ("y", (1, 1))]
          (collectVarMemorySize feedGraph)).1)) :=
  ⟨(runImpl_registry ⟨false, 3, feedGraph⟩ []).1 rfl,
   (runImpl_registry ⟨true, 7, feedGraph⟩ []).2
     [("x", (0, intMax)), ("y", (1, 1))] rfl rfl⟩

/-- C5 counterexample.  On a session where planning runs and `cluster_size`
is nonempty, the registry receives exactly one entry, holding only the
`node2cluster` map; the computed `cluster_size` map is published nowhere. -/
theorem runImpl_publishes_only_node2cluster :
    runImpl ⟨true, 7, feedGraph⟩ [] =
      .ok [(((7 : Int), "memory_optimize_pass"),
        PassResult.strMap [("x", "x"), ("y", "y")])]
    ∧ (∃ lc, collectLifeCycle feedGraph = .ok lc ∧
        (makeSimpleReusePlan lc (collectVarMemorySize feedGraph)).2 =
          [("x", 8), ("y", 8)])
    ∧ ∀ e ∈ [(((7 : Int), "memory_optimize_pass"),
        PassResult.strMap [("x", "x"), ("y", "y")])],
        e.2 ≠ PassResult.intMap [("x", 8), ("y", 8)] := by
  refine ⟨by rfl, ⟨[("x", (0, intMax)), ("y", (1, 1))], by rfl, by rfl⟩, by decide⟩

end MemOpt
